import Mathlib

/-!
Verification of the Trellis hive concurrency substrate against its design
specification.  The definitions below are a shallow embedding of the Python
sources under `.trellis/scripts/hive/`: `cell_dag.py`, `worker_pool.py`,
`models.py`, `drone_validator.py` and `pheromone.py`.  Python dictionaries
become insertion-ordered association lists, Python sets become duplicate-free
lists with membership semantics, timestamps become rationals (or opaque
strings where only equality matters), and fallible operations return
`Option` (`none` models a raised exception).
-/

namespace Trellis

/-! ## Cell DAG data model (`cell_dag.py`) -/

/-- `CellState` enum of `cell_dag.py`. -/
inductive CellState where
  | pending
  | ready
  | running
  | completed
  | failed
  | blocked
deriving DecidableEq, Repr

/-- `CellNode` dataclass of `cell_dag.py`. -/
structure CellNode where
  id : String
  dependencies : List String
  dependents : List String
  state : CellState
  priority : Int
  estimated_duration : Int
  started_at : Option String
  completed_at : Option String
  level : Int
deriving DecidableEq, Repr

/-- `DEFAULT_ESTIMATED_DURATION` of `cell_dag.py`. -/
def DEFAULT_ESTIMATED_DURATION : Int := 60

/-- The mutable state of a `CellDAG` object: the node dictionary (insertion
ordered, unique keys) and the three execution-tracking sets. -/
structure CellDAG where
  nodes : List (String × CellNode)
  completed_ids : List String
  running_ids : List String
  failed_ids : List String
deriving DecidableEq, Repr

/-- A fresh `CellDAG()` (graph part; paths and config are not modelled). -/
def emptyDAG : CellDAG := ⟨[], [], [], []⟩

/-- The keys of the node dictionary, in insertion order. -/
def CellDAG.keys (dag : CellDAG) : List String := dag.nodes.map Prod.fst

/-- Dictionary lookup `self.nodes.get(cid)`. -/
def lookupNode (dag : CellDAG) (cid : String) : Option CellNode :=
  (dag.nodes.find? (fun p => p.1 == cid)).map Prod.snd

/-- In-place mutation of the node stored under a key (no-op when absent). -/
def updateNode (dag : CellDAG) (cid : String) (f : CellNode → CellNode) : CellDAG :=
  { dag with nodes := dag.nodes.map (fun p => if p.1 == cid then (p.1, f p.2) else p) }

/-- Python `set.add` on a set modelled as a duplicate-free list. -/
def setAdd (l : List String) (x : String) : List String :=
  if x ∈ l then l else l ++ [x]

/-- Python `set.discard` on a set modelled as a duplicate-free list. -/
def setDiscard (l : List String) (x : String) : List String :=
  l.filter (fun y => y ≠ x)

/-! ### Graph construction (`add_cell`, `remove_cell`, `update_dependencies`) -/

/-- `CellDAG.add_cell`.  `none` models the `ValueError` raised on a duplicate
id.  Non-positive durations are coerced to the default; the new node's id is
appended to the `dependents` of every already-present dependency; finally the
backfill loop scans all nodes (the new one included, last) for ones whose
`dependencies` mention the new id and appends them to the new node's
`dependents` unless their own `dependents` already mention the new id. -/
def add_cell (dag : CellDAG) (cell_id : String) (dependencies : List String)
    (priority : Int) (estimated_duration : Int) : Option CellDAG :=
  if cell_id ∈ dag.keys then none
  else
    let dur := if estimated_duration ≤ 0 then DEFAULT_ESTIMATED_DURATION else estimated_duration
    let node : CellNode :=
      { id := cell_id, dependencies := dependencies, dependents := [],
        state := .pending, priority := priority, estimated_duration := dur,
        started_at := none, completed_at := none, level := 0 }
    let d1 : CellDAG := { dag with nodes := dag.nodes ++ [(cell_id, node)] }
    let d2 := dependencies.foldl (fun d dep_id =>
      if dep_id ∈ d.keys then
        updateNode d dep_id (fun n => { n with dependents := n.dependents ++ [cell_id] })
      else d) d1
    let d3 := d2.keys.foldl (fun d existing_id =>
      match lookupNode d existing_id with
      | none => d
      | some existing =>
        if cell_id ∈ existing.dependencies ∧ cell_id ∉ existing.dependents then
          updateNode d cell_id (fun n => { n with dependents := n.dependents ++ [existing_id] })
        else d) d2
    some d3

/-- Remove the first occurrence of `x`; `none` models the `ValueError` of
Python's `list.remove` when `x` is absent. -/
def listRemove (l : List String) (x : String) : Option (List String) :=
  if x ∈ l then some (l.erase x) else none

/-- `CellDAG.remove_cell`.  Returns the updated DAG together with the boolean
result; `none` models an escaping `ValueError` from `list.remove`. -/
def remove_cell (dag : CellDAG) (cell_id : String) : Option (CellDAG × Bool) :=
  match lookupNode dag cell_id with
  | none => some (dag, false)
  | some node =>
    -- remove cell_id from each present dependency's dependents
    let stepA := node.dependencies.foldlM (fun (d : CellDAG) dep_id =>
      if dep_id ∈ d.keys then
        match lookupNode d dep_id with
        | some dn =>
          (listRemove dn.dependents cell_id).map (fun l =>
            updateNode d dep_id (fun n => { n with dependents := l }))
        | none => none
      else some d) dag
    stepA.bind (fun dA =>
      -- remove cell_id from each present dependent's dependencies
      let deps2 := ((lookupNode dA cell_id).map CellNode.dependents).getD []
      let stepB := deps2.foldlM (fun (d : CellDAG) dependent_id =>
        if dependent_id ∈ d.keys then
          match lookupNode d dependent_id with
          | some dn =>
            (listRemove dn.dependencies cell_id).map (fun l =>
              updateNode d dependent_id (fun n => { n with dependencies := l }))
          | none => none
        else some d) dA
      stepB.map (fun dB =>
        ({ dB with nodes := dB.nodes.filter (fun p => p.1 ≠ cell_id) }, true)))

/-- `CellDAG.update_dependencies`.  `none` models `CellNotFoundError`. -/
def update_dependencies (dag : CellDAG) (cell_id : String)
    (dependencies : List String) : Option CellDAG :=
  match lookupNode dag cell_id with
  | none => none
  | some node =>
    let d1 := node.dependencies.foldl (fun d dep_id =>
      match lookupNode d dep_id with
      | some dn =>
        if cell_id ∈ dn.dependents then
          updateNode d dep_id (fun n => { n with dependents := n.dependents.erase cell_id })
        else d
      | none => d) dag
    let d2 := updateNode d1 cell_id (fun n => { n with dependencies := dependencies })
    let d3 := dependencies.foldl (fun d dep_id =>
      if dep_id ∈ d.keys then
        updateNode d dep_id (fun n => { n with dependents := n.dependents ++ [cell_id] })
      else d) d2
    some d3

/-! ### Execution state (`mark_*`, `reset_cell`, `get_ready_cells`) -/

/-- `CellNode.is_ready`: all dependencies are in the completed-id set. -/
def is_ready (n : CellNode) (completed_ids : List String) : Bool :=
  n.dependencies.all (fun dep => decide (dep ∈ completed_ids))

/-- `CellNode.can_start`. -/
def can_start (n : CellNode) (running_ids completed_ids : List String) : Bool :=
  n.state == .pending && is_ready n completed_ids && !(decide (n.id ∈ running_ids))

/-- Stable insertion of `x` into a list already sorted by descending key:
`x` goes in front of the first element whose key it reaches. -/
def insertByDesc (key : String → Int) (x : String) : List String → List String
  | [] => [x]
  | y :: ys => if key y ≤ key x then x :: y :: ys else y :: insertByDesc key x ys

/-- Stable sort by descending key, the semantics of Python's
`sorted(l, key=lambda x: -key(x))`. -/
def sortByDesc (key : String → Int) : List String → List String
  | [] => []
  | x :: xs => insertByDesc key x (sortByDesc key xs)

/-- `self.nodes[x].priority` as a total key function (nodes are always
present where it is used). -/
def prioOf (dag : CellDAG) (x : String) : Int :=
  ((lookupNode dag x).map CellNode.priority).getD 0

/-- `CellDAG.get_ready_cells`: ids whose node can start, sorted by
descending priority. -/
def get_ready_cells (dag : CellDAG) : List String :=
  let ready := dag.nodes.filterMap (fun p =>
    if can_start p.2 dag.running_ids dag.completed_ids then some p.1 else none)
  sortByDesc (prioOf dag) ready

/-- `CellDAG.mark_running`.  `now` stands for the ISO timestamp taken by
`datetime.now`. -/
def mark_running (dag : CellDAG) (cell_id : String) (now : String) : CellDAG × Bool :=
  match lookupNode dag cell_id with
  | none => (dag, false)
  | some node =>
    if node.state ≠ CellState.pending then (dag, false)
    else
      let d := updateNode dag cell_id (fun n =>
        { n with state := .running, started_at := some now })
      ({ d with running_ids := setAdd d.running_ids cell_id }, true)

/-- `CellDAG.mark_completed`. -/
def mark_completed (dag : CellDAG) (cell_id : String) (now : String) : CellDAG × Bool :=
  match lookupNode dag cell_id with
  | none => (dag, false)
  | some _ =>
    let d := updateNode dag cell_id (fun n =>
      { n with state := .completed, completed_at := some now })
    ({ d with running_ids := setDiscard d.running_ids cell_id,
              completed_ids := setAdd d.completed_ids cell_id }, true)

/-- The `for dep_id in node.dependents` body of `_propagate_block`: flip a
currently pending dependent to blocked and enqueue it. -/
def blockStep (acc : CellDAG × List String) (dep_id : String) : CellDAG × List String :=
  match lookupNode acc.1 dep_id with
  | some dn =>
    if dn.state = CellState.pending then
      (updateNode acc.1 dep_id (fun n => { n with state := .blocked }),
       acc.2 ++ [dep_id])
    else acc
  | none => acc

/-- One sweep of `CellDAG._propagate_block`'s BFS loop: pop the front id;
skip it when already visited; otherwise flip every currently pending
dependent to blocked and enqueue it. -/
def propagateAux : Nat → List String → List String → CellDAG → CellDAG
  | 0, _, _, d => d
  | _ + 1, [], _, d => d
  | fuel + 1, current :: rest, visited, d =>
    if current ∈ visited then propagateAux fuel rest visited d
    else
      let visited' := current :: visited
      match lookupNode d current with
      | none => propagateAux fuel rest visited' d
      | some node =>
        let step := node.dependents.foldl blockStep (d, [])
        propagateAux fuel (rest ++ step.2) visited' step.1

/-- `CellDAG._propagate_block`.  The fuel `|nodes| + 1` dominates the loop's
iteration count (each iteration either discards a visited id or flips at
least as many pending nodes as it enqueues). -/
def propagate_block (dag : CellDAG) (cell_id : String) : CellDAG :=
  propagateAux (dag.nodes.length + 1) [cell_id] [] dag

/-- `CellDAG.mark_failed`. -/
def mark_failed (dag : CellDAG) (cell_id : String) : CellDAG × Bool :=
  match lookupNode dag cell_id with
  | none => (dag, false)
  | some _ =>
    let d1 := updateNode dag cell_id (fun n => { n with state := .failed })
    let d2 : CellDAG :=
      { d1 with running_ids := setDiscard d1.running_ids cell_id,
                failed_ids := setAdd d1.failed_ids cell_id }
    (propagate_block d2 cell_id, true)

/-- `CellDAG.reset_cell`. -/
def reset_cell (dag : CellDAG) (cell_id : String) : CellDAG × Bool :=
  match lookupNode dag cell_id with
  | none => (dag, false)
  | some _ =>
    let d := updateNode dag cell_id (fun n =>
      { n with state := .pending, started_at := none, completed_at := none })
    ({ d with running_ids := setDiscard d.running_ids cell_id,
              completed_ids := setDiscard d.completed_ids cell_id,
              failed_ids := setDiscard d.failed_ids cell_id }, true)

/-! ### Cycle detection (`detect_cycle`) -/

/-- Mutable state of `detect_cycle`'s DFS: the `visited` and `rec_stack`
sets and the `parent` map (latest binding first, like dict overwrite). -/
structure DfsSt where
  visited : List String
  recStack : List String
  parent : List (String × String)
deriving DecidableEq, Repr

/-- `parent.get current` (latest binding wins). -/
def parentGet (parent : List (String × String)) (current : String) : Option String :=
  (parent.find? (fun p => p.1 == current)).map Prod.snd

/-- The cycle-reconstruction `while` loop of `detect_cycle`: walk `parent`
from `node_id` back to `dep_id`, accumulating the path. -/
def buildCycleAux (parent : List (String × String)) (dep_id : String) :
    Nat → String → List String → List String
  | 0, _, acc => acc
  | fuel + 1, current, acc =>
    if current == dep_id then acc
    else
      match parentGet parent current with
      | none => acc ++ [current]
      | some nxt => buildCycleAux parent dep_id fuel nxt (acc ++ [current])

/-- Cycle reconstruction of `detect_cycle`: `[dep_id, …path…, dep_id]`
reversed. -/
def buildCycle (parent : List (String × String)) (dep_id node_id : String)
    (fuel : Nat) : List String :=
  (buildCycleAux parent dep_id fuel node_id [dep_id] ++ [dep_id]).reverse

/-- The `for dep_id in node.dependencies` loop inside `dfs`, parametrised by
the recursive call used on unvisited dependencies. -/
def dfsDeps (dag : CellDAG)
    (visit : DfsSt → String → DfsSt × Option (List String)) :
    DfsSt → String → List String → DfsSt × Option (List String)
  | s, _, [] => (s, none)
  | s, node_id, dep_id :: ds =>
    if dep_id ∈ s.visited then
      if dep_id ∈ s.recStack then
        (s, some (buildCycle s.parent dep_id node_id (dag.nodes.length + 1)))
      else dfsDeps dag visit s node_id ds
    else
      let s' : DfsSt := { s with parent := (dep_id, node_id) :: s.parent }
      match visit s' dep_id with
      | (s2, some c) => (s2, some c)
      | (s2, none) => dfsDeps dag visit s2 node_id ds

/-- One `dfs(node_id)` call of `detect_cycle`: mark visited, push on the
recursion stack, explore the node's dependencies, pop the stack. -/
def dfsVisit (dag : CellDAG) : Nat → DfsSt → String → DfsSt × Option (List String)
  | 0, s, _ => (s, none)
  | fuel + 1, s, node_id =>
    let s1 : DfsSt :=
      { visited := node_id :: s.visited, recStack := node_id :: s.recStack,
        parent := s.parent }
    match lookupNode dag node_id with
    | none => ({ s1 with recStack := s1.recStack.erase node_id }, none)
    | some node =>
      match dfsDeps dag (dfsVisit dag fuel) s1 node_id node.dependencies with
      | (s2, some c) => (s2, some c)
      | (s2, none) => ({ s2 with recStack := s2.recStack.erase node_id }, none)

/-- Every id the DFS can ever touch: the node keys and every id mentioned
in a dependency list. -/
def dfsUniverse (dag : CellDAG) : List String :=
  dag.keys ++ (dag.nodes.map (fun p => p.2.dependencies)).flatten

/-- The `for node_id in self.nodes` body of `detect_cycle`: once a cycle is
found it is carried through; otherwise unvisited nodes are explored. -/
def detectStep (dag : CellDAG) (fuel : Nat) (acc : DfsSt × Option (List String))
    (node_id : String) : DfsSt × Option (List String) :=
  match acc with
  | (s, some c) => (s, some c)
  | (s, none) =>
    if node_id ∈ s.visited then (s, none) else dfsVisit dag fuel s node_id

/-- `CellDAG.detect_cycle`: run `dfs` from every unvisited node in insertion
order; report the first cycle found.  The fuel bounds the recursion depth,
which never exceeds the number of distinct reachable ids. -/
def detect_cycle (dag : CellDAG) : Option (List String) :=
  (dag.keys.foldl (detectStep dag ((dfsUniverse dag).length + 1))
    (⟨[], [], []⟩, none)).2

/-! ### Topological sort (`topological_sort`, Kahn's algorithm) -/

/-- Pointwise update of a degree table. -/
def updFn (f : String → Int) (x : String) (v : Int) : String → Int :=
  fun y => if y = x then v else f y

/-- The initial in-degree table: `len(node.dependencies)` for present nodes,
the `defaultdict` default `0` elsewhere. -/
def kahnInDeg (dag : CellDAG) : String → Int :=
  fun u =>
    match lookupNode dag u with
    | some n => (n.dependencies.length : Int)
    | none => 0

/-- The `for dep_id in node.dependents` body of Kahn's loop: decrement the
dependent's in-degree and enqueue it when the count reaches zero. -/
def kahnFold (dependents : List String) (inDeg : String → Int) (queue : List String) :
    (String → Int) × List String :=
  dependents.foldl (fun (acc : (String → Int) × List String) dep_id =>
    let v := acc.1 dep_id - 1
    (updFn acc.1 dep_id v, if v = 0 then acc.2 ++ [dep_id] else acc.2))
    (inDeg, queue)

/-- Kahn's `while queue` loop: sort the queue by descending priority, pop the
head, append it to the result, decrement its dependents.  `none` models a
`KeyError` (popped id absent) or fuel exhaustion; both are proved impossible
in the runs the theorems speak about. -/
def kahnLoop (dag : CellDAG) : Nat → List String → (String → Int) → List String →
    Option (List String)
  | 0, queue, _, result => if queue.isEmpty then some result else none
  | _ + 1, [], _, result => some result
  | fuel + 1, queue@(_ :: _), inDeg, result =>
    match sortByDesc (prioOf dag) queue with
    | [] => some result
    | node_id :: rest =>
      match lookupNode dag node_id with
      | none => none
      | some node =>
        let step := kahnFold node.dependents inDeg rest
        kahnLoop dag fuel step.2 step.1 (result ++ [node_id])

/-- The initial ready queue: nodes with no dependencies, in insertion order. -/
def kahnInitQueue (dag : CellDAG) : List String :=
  dag.nodes.filterMap (fun p => if p.2.dependencies.isEmpty then some p.1 else none)

/-- `CellDAG.topological_sort`: `none` models the `CycleDetectedError`
raised when `detect_cycle` reports a cycle. -/
def topological_sort (dag : CellDAG) : Option (List String) :=
  match detect_cycle dag with
  | some _ => none
  | none => kahnLoop dag (dag.nodes.length + 1) (kahnInitQueue dag) (kahnInDeg dag) []

/-- Ghost variant of `kahnLoop` that also logs, for every extraction, the
sorted ready queue it popped from.  Used only to state the priority
tie-breaking property; `kahnTrace_fst` relates it to `kahnLoop`. -/
def kahnLoopTrace (dag : CellDAG) : Nat → List String → (String → Int) →
    List String → List (String × List String) →
    Option (List String × List (String × List String))
  | 0, queue, _, result, trace => if queue.isEmpty then some (result, trace) else none
  | _ + 1, [], _, result, trace => some (result, trace)
  | fuel + 1, queue@(_ :: _), inDeg, result, trace =>
    match sortByDesc (prioOf dag) queue with
    | [] => some (result, trace)
    | node_id :: rest =>
      match lookupNode dag node_id with
      | none => none
      | some node =>
        let step := kahnFold node.dependents inDeg rest
        kahnLoopTrace dag fuel step.2 step.1 (result ++ [node_id])
          (trace ++ [(node_id, node_id :: rest)])

/-- The extraction trace of `topological_sort`'s Kahn loop. -/
def kahnTrace (dag : CellDAG) : Option (List String × List (String × List String)) :=
  kahnLoopTrace dag (dag.nodes.length + 1) (kahnInitQueue dag) (kahnInDeg dag) [] []

/-! ### Critical path (`get_critical_path`) -/

/-- Pointwise update of the predecessor table. -/
def updPred (f : String → Option String) (x : String) (v : Option String) :
    String → Option String :=
  fun y => if y = x then v else f y

/-- The `while current is not None` path reconstruction of
`get_critical_path`. -/
def cpWalk (pred : String → Option String) : Nat → Option String → List String →
    List String
  | 0, _, path => path
  | _ + 1, none, path => path
  | fuel + 1, some c, path => cpWalk pred fuel (pred c) (path ++ [c])

/-- `CellDAG.get_critical_path`: longest-path dynamic program over the
topological order, then walk the predecessor chain back from the node of
maximum distance (Python's `max` keeps the first maximal key).  `none`
models `CycleDetectedError`. -/
def get_critical_path (dag : CellDAG) : Option (List String) :=
  if dag.nodes.isEmpty then some []
  else
    match detect_cycle dag with
    | some _ => none
    | none =>
      (topological_sort dag).bind (fun order =>
        let init : (String → Int) × (String → Option String) :=
          (fun _ => 0, fun _ => none)
        let dp := order.foldl (fun (acc : (String → Int) × (String → Option String)) node_id =>
          match lookupNode dag node_id with
          | none => acc
          | some node =>
            let dur := if node.estimated_duration ≤ 0 then DEFAULT_ESTIMATED_DURATION
                       else node.estimated_duration
            node.dependencies.foldl
              (fun (acc2 : (String → Int) × (String → Option String)) dep_id =>
                if acc2.1 node_id < acc2.1 dep_id + dur then
                  (updFn acc2.1 node_id (acc2.1 dep_id + dur),
                   updPred acc2.2 node_id (some dep_id))
                else acc2) acc) init
        match dag.keys with
        | [] => some []
        | k :: ks =>
          let end_node := ks.foldl (fun best x => if dp.1 best < dp.1 x then x else best) k
          some (cpWalk dp.2 (dag.nodes.length + 1) (some end_node) []).reverse)

/-! ### Serialization (`to_dict` / `from_dict`) -/

/-- The per-node dictionary written by `CellDAG.to_dict` (the enum value
string is modelled by the enum itself; `CellState(value)` is its inverse). -/
structure NodeDict where
  dependencies : List String
  state : CellState
  priority : Int
  estimated_duration : Int
  level : Int
  started_at : Option String
  completed_at : Option String
deriving DecidableEq, Repr

/-- The dictionary written by `CellDAG.to_dict`. -/
structure DAGDict where
  nodes : List (String × NodeDict)
  completed_ids : List String
  running_ids : List String
  failed_ids : List String
deriving DecidableEq, Repr

/-- `CellDAG.to_dict`. -/
def to_dict (dag : CellDAG) : DAGDict :=
  { nodes := dag.nodes.map (fun p =>
      (p.1, { dependencies := p.2.dependencies, state := p.2.state,
              priority := p.2.priority, estimated_duration := p.2.estimated_duration,
              level := p.2.level, started_at := p.2.started_at,
              completed_at := p.2.completed_at })),
    completed_ids := dag.completed_ids,
    running_ids := dag.running_ids,
    failed_ids := dag.failed_ids }

/-- `CellDAG.from_dict`: re-add every node through `add_cell` (which
reconstructs `dependents`), overwrite the restored fields, then install the
tracking sets.  `none` models an escaping `ValueError` (duplicate key). -/
def from_dict (data : DAGDict) : Option CellDAG :=
  (data.nodes.foldlM (fun (d : CellDAG) p =>
    (add_cell d p.1 p.2.dependencies p.2.priority p.2.estimated_duration).map
      (fun d' => updateNode d' p.1 (fun n =>
        { n with state := p.2.state, level := p.2.level,
                 started_at := p.2.started_at, completed_at := p.2.completed_at })))
    emptyDAG).map (fun d =>
      { d with completed_ids := data.completed_ids,
               running_ids := data.running_ids,
               failed_ids := data.failed_ids })

/-! ## Worker pool data model (`models.py`, `worker_pool.py`)

Timestamps are modelled as integer seconds; each operation that reads the
wall clock takes the current time as an argument. -/

/-- `WorkerState` enum of `models.py`. -/
inductive WorkerState where
  | idle
  | busy
  | blocked
  | error
  | timeout
  | stopped
deriving DecidableEq, Repr

/-- `TaskPriority` enum of `models.py` (HIGH = 1 scheduled first). -/
inductive TaskPriority where
  | high
  | medium
  | low
deriving DecidableEq, Repr

/-- `WorkerTask` dataclass of `models.py` (fields that do not influence the
modelled behaviour — description, platform, timeout, inputs, outputs,
created_at — are carried as-is or omitted). -/
structure WorkerTask where
  cell_id : String
  priority : TaskPriority
  worktree_path : Option String
deriving DecidableEq, Repr

/-- `Worker` dataclass of `models.py` (the subprocess handle is not
modelled). -/
structure Worker where
  id : String
  state : WorkerState
  cell_id : Option String
  current_task : Option WorkerTask
  progress : Int
  started_at : Option ℤ
  last_heartbeat : Option ℤ
  completed_tasks : Nat
  failed_tasks : Nat
  worktree_path : Option String
deriving DecidableEq, Repr

/-- `TaskQueue` of `worker_pool.py`: three FIFO bands keyed by priority. -/
structure TaskQueue where
  high : List WorkerTask
  medium : List WorkerTask
  low : List WorkerTask
deriving DecidableEq, Repr

/-- `TaskQueue.put`. -/
def taskQueuePut (q : TaskQueue) (task : WorkerTask) : TaskQueue :=
  match task.priority with
  | .high => { q with high := q.high ++ [task] }
  | .medium => { q with medium := q.medium ++ [task] }
  | .low => { q with low := q.low ++ [task] }

/-- `TaskQueue.get`: head of the highest non-empty band. -/
def taskQueueGet (q : TaskQueue) : Option WorkerTask × TaskQueue :=
  match q.high with
  | t :: ts => (some t, { q with high := ts })
  | [] =>
    match q.medium with
    | t :: ts => (some t, { q with medium := ts })
    | [] =>
      match q.low with
      | t :: ts => (some t, { q with low := ts })
      | [] => (none, q)

/-- The mutable state of a `WorkerPool` (threads, locks and process handles
are not modelled; `has_complete_cb` models whether an `on_task_complete`
callback is registered). -/
structure WorkerPool where
  workers : List (String × Worker)
  max_workers : Nat
  worker_counter : Nat
  task_queue : TaskQueue
  has_complete_cb : Bool
deriving DecidableEq, Repr

/-- A fresh pool with no workers. -/
def mkPool (max_workers : Nat) (has_complete_cb : Bool) : WorkerPool :=
  { workers := [], max_workers := max_workers, worker_counter := 0,
    task_queue := ⟨[], [], []⟩, has_complete_cb := has_complete_cb }

/-- Dictionary lookup `self.workers.get(worker_id)`. -/
def lookupWorker (pool : WorkerPool) (worker_id : String) : Option Worker :=
  (pool.workers.find? (fun p => p.1 == worker_id)).map Prod.snd

/-- In-place mutation of one worker record. -/
def updateWorker (pool : WorkerPool) (worker_id : String) (f : Worker → Worker) :
    WorkerPool :=
  { pool with workers := pool.workers.map (fun p =>
      if p.1 == worker_id then (p.1, f p.2) else p) }

/-- `Worker.is_idle`. -/
def workerIsIdle (w : Worker) : Bool := w.state == .idle

/-- `WorkerPool._spawn_worker`. -/
def spawn_worker (pool : WorkerPool) (now : ℤ) : WorkerPool × String :=
  let counter := pool.worker_counter + 1
  let wid := "worker-" ++ toString counter
  let w : Worker :=
    { id := wid, state := .idle, cell_id := none, current_task := none,
      progress := 0, started_at := none, last_heartbeat := some now,
      completed_tasks := 0, failed_tasks := 0, worktree_path := none }
  ({ pool with worker_counter := counter, workers := pool.workers ++ [(wid, w)] }, wid)

/-- `WorkerPool.assign_cell`: pick the first idle worker (or spawn one while
under `max_workers`), record the task on it and mark it busy.  Returns the
assigned worker's id, `none` when no worker was available. -/
def assign_cell (pool : WorkerPool) (task : WorkerTask) (now : ℤ) :
    WorkerPool × Option String :=
  let idle := pool.workers.filter (fun p => workerIsIdle p.2)
  let picked : Option (WorkerPool × String) :=
    match idle with
    | [] =>
      if pool.workers.length < pool.max_workers then some (spawn_worker pool now)
      else none
    | p :: _ => some (pool, p.1)
  match picked with
  | none => (pool, none)
  | some (pool1, wid) =>
    (updateWorker pool1 wid (fun w =>
      { w with current_task := some task, state := .busy, progress := 0,
               started_at := some now, last_heartbeat := some now,
               worktree_path := task.worktree_path }), some wid)

/-- `WorkerPool.submit_task` (non-waiting path): try to assign, enqueue on
failure. -/
def submit_task (pool : WorkerPool) (task : WorkerTask) (now : ℤ) :
    WorkerPool × Option String :=
  match assign_cell pool task now with
  | (pool1, some wid) => (pool1, some wid)
  | (pool1, none) => ({ pool1 with task_queue := taskQueuePut pool1.task_queue task }, none)

/-- `WorkerPool.release_worker`: update the counters, reset the worker to
idle, fire the completion callback (whose `task_id` argument is computed
*after* the reset), then hand the head-of-queue task to `assign_cell`.  The
second component is the `(task_id, success)` pair passed to the callback,
`none` when no callback fired. -/
def release_worker (pool : WorkerPool) (worker_id : String) (success : Bool)
    (now : ℤ) : WorkerPool × Option (String × Bool) :=
  match lookupWorker pool worker_id with
  | none => (pool, none)
  | some _ =>
    let pool1 := updateWorker pool worker_id (fun w =>
      let w1 := if success then { w with completed_tasks := w.completed_tasks + 1 }
                else { w with failed_tasks := w.failed_tasks + 1 }
      { w1 with current_task := none, state := .idle, progress := 0,
                worktree_path := none, last_heartbeat := some now })
    let event :=
      if pool1.has_complete_cb then
        let task_id :=
          match (lookupWorker pool1 worker_id).bind Worker.current_task with
          | some t => t.cell_id
          | none => worker_id
        some (task_id, success)
      else none
    let got := taskQueueGet pool1.task_queue
    let pool2 := { pool1 with task_queue := got.2 }
    match got.1 with
    | some pending_task => ((assign_cell pool2 pending_task now).1, event)
    | none => (pool2, event)

/-- One iteration of `monitor_heartbeat`'s `for worker in self.workers`
loop: skip workers without a heartbeat, flip a busy worker whose heartbeat
is older than the timeout to `timeout` and record it. -/
def monitorStep (now timeout_seconds : ℤ)
    (acc : List (String × Worker) × List String) (p : String × Worker) :
    List (String × Worker) × List String :=
  match p.2.last_heartbeat with
  | none => (acc.1 ++ [p], acc.2)
  | some hb =>
    if timeout_seconds < now - hb ∧ p.2.state = WorkerState.busy then
      (acc.1 ++ [(p.1, { p.2 with state := .timeout })], acc.2 ++ [p.1])
    else (acc.1 ++ [p], acc.2)

/-- `WorkerPool.monitor_heartbeat`: flip every busy worker whose heartbeat
is older than the timeout to `timeout` (mutating the iterated worker
records in place).  Returns the timed-out ids. -/
def monitor_heartbeat (pool : WorkerPool) (now timeout_seconds : ℤ) :
    WorkerPool × List String :=
  let r := pool.workers.foldl (monitorStep now timeout_seconds) ([], [])
  ({ pool with workers := r.1 }, r.2)

/-- The pool states reachable through the modelled operations: assignment
(direct or via submission), release and heartbeat monitoring. -/
inductive PoolReachable : WorkerPool → Prop where
  | init (max_workers : Nat) (cb : Bool) : PoolReachable (mkPool max_workers cb)
  | assign {p} (task : WorkerTask) (now : ℤ) :
      PoolReachable p → PoolReachable (assign_cell p task now).1
  | submit {p} (task : WorkerTask) (now : ℤ) :
      PoolReachable p → PoolReachable (submit_task p task now).1
  | release {p} (worker_id : String) (success : Bool) (now : ℤ) :
      PoolReachable p → PoolReachable (release_worker p worker_id success now).1
  | monitor {p} (now timeout_seconds : ℤ) :
      PoolReachable p → PoolReachable (monitor_heartbeat p now timeout_seconds).1

/-! ## Drone validator (`drone_validator.py`) -/

/-- `DroneValidator.CONSENSUS_THRESHOLD`. -/
def CONSENSUS_THRESHOLD : ℚ := 90

/-- The per-drone verdict `consensus_reached` of `validate_cell`:
`consensus_score >= CONSENSUS_THRESHOLD`. -/
def drone_passed (score : ℚ) : Bool := CONSENSUS_THRESHOLD ≤ score

/-- The consensus analysis of `DroneValidator.cross_validate`, as a function
of the per-drone consensus scores: mean, population variance (0 for a single
drone), and the three-way consensus condition. -/
def cross_validate_consensus (scores : List ℚ) : Bool :=
  let avg_score : ℚ := scores.sum / scores.length
  let score_variance : ℚ :=
    if 1 < scores.length then
      (scores.map (fun s => (s - avg_score) ^ 2)).sum / scores.length
    else 0
  let all_pass := scores.all drone_passed
  decide (CONSENSUS_THRESHOLD ≤ avg_score) && decide (score_variance < 100) &&
    (all_pass || decide ((95 : ℚ) ≤ avg_score))

/-- The mean of a list of scores (specification side). -/
def scoreMean (scores : List ℚ) : ℚ := scores.sum / scores.length

/-- The population variance of a list of scores (specification side). -/
def scoreVariance (scores : List ℚ) : ℚ :=
  (scores.map (fun s => (s - scoreMean scores) ^ 2)).sum / scores.length

/-! ## Pheromone bus (`pheromone.py`) -/

/-- The parsed shared-state document (opaque key/value content; only the
empty/"inactive" default matters to the claims). -/
abbrev PheromoneData := List (String × String)

/-- The shared state file as `_read_pheromone` can find it: absent,
malformed JSON, or well-formed. -/
inductive PheromoneFileState where
  | absent
  | malformed
  | wellFormed (d : PheromoneData)
deriving DecidableEq, Repr

/-- The empty state `{"status": "inactive"}` created for an absent file. -/
def inactiveState : PheromoneData := [("status", "inactive")]

/-- `PheromoneManager._read_pheromone`: return the inactive default when the
file does not exist, otherwise `json.load` — whose `JSONDecodeError` on
malformed content escapes (modelled as `Except.error`).  The first component
of the result is the file state afterwards: the function never writes. -/
def read_pheromone (fs : PheromoneFileState) :
    PheromoneFileState × Except String PheromoneData :=
  match fs with
  | .absent => (.absent, .ok inactiveState)
  | .malformed => (.malformed, .error "json.decoder.JSONDecodeError")
  | .wellFormed d => (.wellFormed d, .ok d)

/-- One entry of the `active_pheromones` list, as `decay_pheromones` reads
it: `timestamp` is the parse of the stored ISO string (`none` when parsing
raises), `ttl` and `strength` the stored numbers; the remaining fields are
carried through untouched. -/
structure PheromoneEntry where
  ptype : String
  source : String
  target : Option String
  data : String
  timestamp : Option ℚ
  ttl : ℚ
  strength : ℚ
deriving DecidableEq, Repr

/-- `EnhancedPheromoneManager.decay_pheromones`, acting on the live entry
list: entries with unparseable timestamps or with `age ≥ ttl` are dropped
and counted as expired; survivors get `strength × (1 − age/ttl)`.  Returns
the surviving list and the expired count.  `decayStep` is the loop body. -/
def decayStep (ttl_override : Option ℚ) (now : ℚ)
    (acc : List PheromoneEntry × Nat) (p : PheromoneEntry) : List PheromoneEntry × Nat :=
  match p.timestamp with
  | none => (acc.1, acc.2 + 1)
  | some t =>
    let age_seconds := now - t
    let entry_ttl := ttl_override.getD p.ttl
    if age_seconds < entry_ttl then
      let decay_factor := 1 - age_seconds / entry_ttl
      (acc.1 ++ [{ p with strength := p.strength * decay_factor }], acc.2)
    else (acc.1, acc.2 + 1)

def decay_pheromones (ttl_override : Option ℚ) (now : ℚ)
    (active : List PheromoneEntry) : List PheromoneEntry × Nat :=
  active.foldl (decayStep ttl_override now) ([], 0)

/-! ## Derived definitions used by the claims -/

/-- The survivor transformation of one decay sweep. -/
def decaySurvivor (now : ℚ) (p : PheromoneEntry) : Option PheromoneEntry :=
  match p.timestamp with
  | none => none
  | some t =>
    if now - t < p.ttl then
      some { p with strength := p.strength * (1 - (now - t) / p.ttl) }
    else none

/-- The expiry test of one decay sweep. -/
def decayExpired (now : ℚ) (p : PheromoneEntry) : Bool :=
  match p.timestamp with
  | none => true
  | some t => decide (p.ttl ≤ now - t)

/-- The S3 build: `a`(10), `b` deps{a}(20), `c` deps{a}(5), `d` deps{b}(15),
`e` deps{c}(40). -/
def c9dag : Option CellDAG :=
  (add_cell emptyDAG "a" [] 0 10).bind (fun d =>
  (add_cell d "b" ["a"] 0 20).bind (fun d =>
  (add_cell d "c" ["a"] 0 5).bind (fun d =>
  (add_cell d "d" ["b"] 0 15).bind (fun d =>
  (add_cell d "e" ["c"] 0 40)))))

/-- Concrete pool for the C10 witness: one busy worker obtained through
`assign_cell`, callback registered. -/
def c10pool : WorkerPool :=
  (assign_cell (mkPool 3 true) ⟨"cell-1", .medium, none⟩ 0).1

/-- The fields of a `CellNode` other than `dependents`: the ones `from_dict`
restores verbatim. -/
structure CellNodeCore where
  id : String
  dependencies : List String
  state : CellState
  priority : Int
  estimated_duration : Int
  started_at : Option String
  completed_at : Option String
  level : Int
deriving DecidableEq, Repr

/-- Project a node onto its non-`dependents` fields. -/
def nodeCore (n : CellNode) : CellNodeCore :=
  ⟨n.id, n.dependencies, n.state, n.priority, n.estimated_duration,
   n.started_at, n.completed_at, n.level⟩

/-- Two DAG states that agree on everything except the `dependents` lists. -/
def coreEq (d1 d2 : CellDAG) : Prop :=
  d1.keys = d2.keys ∧
  (∀ u, (lookupNode d1 u).map nodeCore = (lookupNode d2 u).map nodeCore) ∧
  d1.completed_ids = d2.completed_ids ∧
  d1.running_ids = d2.running_ids ∧
  d1.failed_ids = d2.failed_ids

/-- The C3 counterexample build: three independent cells, then two
`update_dependencies` calls that hang both `c` and `b` below `a`, in that
order — so `a.dependents = [c, b]` while a rebuild appends in key order. -/
def c3dag : Option CellDAG :=
  (add_cell emptyDAG "a" [] 0 60).bind (fun d =>
  (add_cell d "b" [] 0 60).bind (fun d =>
  (add_cell d "c" [] 0 60).bind (fun d =>
  (update_dependencies d "c" ["a"]).bind (fun d =>
  (update_dependencies d "b" ["a"])))))

/-- A small well-formed DAG used as the C3 witness input. -/
def c3witDag : CellDAG :=
  ((add_cell emptyDAG "a" [] 0 60).bind (fun d =>
    add_cell d "b" ["a"] 1 30)).getD emptyDAG

/-- The C5 counterexample build: add `u`, mark it running, remove it, add it
again.  `remove_cell` never cleans `_running_ids`, so the re-added pending
cell with no dependencies is not ready. -/
def c5dag : Option CellDAG :=
  (add_cell emptyDAG "u" [] 0 60).bind (fun d =>
  (remove_cell (mark_running d "u" "t0").1 "u").bind (fun p =>
  add_cell p.1 "u" [] 0 60))

/-- The per-worker invariant claimed by the spec: a task is recorded iff the
worker is busy. -/
def taskIffBusy (p : WorkerPool) : Prop :=
  ∀ pr ∈ p.workers, (pr.2.current_task ≠ none ↔ pr.2.state = WorkerState.busy)

/-- The invariant the pool actually maintains: a task is recorded iff the
worker is busy or has timed out (heartbeat expiry keeps the task). -/
def taskIffBusyOrTimeout (w : Worker) : Prop :=
  w.current_task ≠ none ↔ (w.state = WorkerState.busy ∨ w.state = WorkerState.timeout)

/-- The C6 counterexample pool: one worker assigned at time 0, monitored at
time 1000 with a 300 s timeout. -/
def c6pool : WorkerPool :=
  (monitor_heartbeat (assign_cell (mkPool 3 false) ⟨"cell-1", .medium, none⟩ 0).1
    1000 300).1

/-- A reachable pool used as the C6 witness input. -/
def c6wit : WorkerPool :=
  (assign_cell (mkPool 2 false) ⟨"cell-9", .high, none⟩ 7).1

/-- The state of the node stored under a key. -/
def stateOf (d : CellDAG) (x : String) : Option CellState :=
  (lookupNode d x).map CellNode.state

/-- The dependents list of the node stored under a key (empty when absent). -/
def dependentsOf (d : CellDAG) (x : String) : List String :=
  ((lookupNode d x).map CellNode.dependents).getD []

/-- The number of pending nodes. -/
def pendingCount (d : CellDAG) : Nat :=
  d.nodes.countP (fun p => p.2.state == CellState.pending)

/-- Reachability from `u` along `dependents` edges, with no condition on
the intermediate or target nodes — the relation the claim quantifies over. -/
inductive ReachDependents (dag : CellDAG) (u : String) : String → Prop where
  | refl : ReachDependents dag u u
  | step {x y : String} : ReachDependents dag u x → y ∈ dependentsOf dag x →
      ReachDependents dag u y

/-- Reachability from `u` along `dependents` edges through nodes that were
pending (and distinct from `u`) at the time of the `mark_failed` call — the
paths the BFS actually propagates along. -/
inductive PendingReach (dag : CellDAG) (u : String) : String → Prop where
  | refl : PendingReach dag u u
  | step {x y : String} : PendingReach dag u x → y ∈ dependentsOf dag x →
      y ≠ u → stateOf dag y = some CellState.pending → PendingReach dag u y

/-- Two DAG states that differ only in that some pending nodes of the first
have been flipped to blocked in the second. -/
def flipEq (d1 d2 : CellDAG) : Prop :=
  ∀ x, lookupNode d2 x = lookupNode d1 x ∨
    (stateOf d1 x = some CellState.pending ∧
     lookupNode d2 x = (lookupNode d1 x).map (fun n => { n with state := CellState.blocked }))

/-- The DAG state `mark_failed` hands to `_propagate_block`: the failed
node's state set and the tracking sets adjusted. -/
def markFailedPre (dag : CellDAG) (u : String) : CellDAG :=
  let d1 := updateNode dag u (fun n => { n with state := CellState.failed })
  { d1 with running_ids := setDiscard d1.running_ids u,
            failed_ids := setAdd d1.failed_ids u }

/-- The C2 counterexample build: `u → w1 → w2` with `w1` marked completed,
so the BFS from `u` stops at `w1` and never reaches the pending `w2`. -/
def c2dag : Option CellDAG :=
  (add_cell emptyDAG "u" [] 0 60).bind (fun d =>
  (add_cell d "w1" ["u"] 0 60).bind (fun d =>
  (add_cell d "w2" ["w1"] 0 60).bind (fun d =>
  some (mark_completed d "w1" "t1").1)))

/-- The C2 witness build: a pending chain `a → b → c`. -/
def c2witDag : CellDAG :=
  ((add_cell emptyDAG "a" [] 0 60).bind (fun d =>
  (add_cell d "b" ["a"] 0 60).bind (fun d =>
  (add_cell d "c" ["b"] 0 60)))).getD emptyDAG

/-- The C2 counterexample DAG, extracted from the (succeeding) build. -/
def c2cexDag : CellDAG := c2dag.getD emptyDAG

/-- DFS invariant for `detect_cycle`: `L` lists the finished (black) nodes
in finishing order.  A node is black iff visited and off the recursion
stack; every black node's dependencies are black and finished earlier; the
recursion stack only holds visited nodes. -/
def GoodSt (dag : CellDAG) (s : DfsSt) (L : List String) : Prop :=
  L.Nodup ∧
  (∀ x, x ∈ L ↔ (x ∈ s.visited ∧ x ∉ s.recStack)) ∧
  (∀ u nu, lookupNode dag u = some nu → u ∈ L →
     ∀ v ∈ nu.dependencies, v ∈ L ∧ L.indexOf v < L.indexOf u) ∧
  (∀ x ∈ s.recStack, x ∈ s.visited)

/-- Termination measure of the DFS: ids of the universe not yet visited. -/
def dfsUnseen (dag : CellDAG) (visited : List String) : Nat :=
  ((dfsUniverse dag).filter (fun x => !visited.contains x)).length

/-- Specification of one cycle-free `dfs` call: the finish list grows, the
recursion stack is restored, the visited set grows, and the visited node
finishes. -/
def VisitGood (dag : CellDAG) (F : Nat)
    (visit : DfsSt → String → DfsSt × Option (List String)) : Prop :=
  ∀ s nid L s' res, GoodSt dag s L → nid ∉ s.visited → nid ∈ dfsUniverse dag →
    dfsUnseen dag s.visited < F →
    visit s nid = (s', res) → res = none →
    ∃ E, GoodSt dag s' (L ++ E) ∧
      s'.recStack = s.recStack ∧
      (∀ x ∈ s.visited, x ∈ s'.visited) ∧
      nid ∈ L ++ E

/-- Invariant of Kahn's `while queue` loop in `topological_sort`, for result
list `R`, ready queue `q` and in-degree table `f`: the result and queue are
duplicate-free and made of keys, `f` holds the number of not-yet-extracted
dependencies of every unextracted node, the queue holds exactly the
unextracted nodes with no remaining dependencies, the result is closed
under dependencies in order, and extracted counters stay non-positive. -/
def KahnInv (dag : CellDAG) (R q : List String) (f : String → Int) : Prop :=
  R.Nodup ∧ (∀ x ∈ R, x ∈ dag.keys) ∧
  q.Nodup ∧ (∀ x ∈ q, x ∈ dag.keys ∧ x ∉ R) ∧
  (∀ w nw, lookupNode dag w = some nw → w ∉ R →
     f w = ((nw.dependencies.filter (fun v => !R.contains v)).length : Int)) ∧
  (∀ w nw, lookupNode dag w = some nw → w ∉ R →
     (w ∈ q ↔ (nw.dependencies.filter (fun v => !R.contains v)).length = 0)) ∧
  (∀ u nu, lookupNode dag u = some nu → u ∈ R →
     ∀ v ∈ nu.dependencies, v ∈ R ∧ R.indexOf v < R.indexOf u) ∧
  (∀ w ∈ R, f w ≤ 0)

/-- The C1 witness build: `a` (priority 1) and `b` (priority 5) with no
dependencies, `c` depending on `a`. -/
def c1witDag : CellDAG :=
  ((add_cell emptyDAG "a" [] 1 60).bind (fun d =>
  (add_cell d "b" [] 5 60).bind (fun d =>
  (add_cell d "c" ["a"] 0 60)))).getD emptyDAG

/-- The C1 counterexample build: a single cell `u` declaring a dependency on
the absent id `m`.  `add_cell` accepts it, `detect_cycle` finds no cycle,
yet Kahn's algorithm never enqueues `u`, so the sort silently drops it. -/
def c1cexDag : CellDAG := (add_cell emptyDAG "u" ["m"] 0 60).getD emptyDAG

/-! ## Association-list lemmas -/

theorem lookupWorker_updateWorker_self (pool : WorkerPool) (wid : String)
    (f : Worker → Worker) :
    lookupWorker (updateWorker pool wid f) wid = (lookupWorker pool wid).map f := by
  unfold lookupWorker updateWorker
  induction pool.workers with
  | nil => rfl
  | cons hd tl ih =>
    by_cases h : hd.1 = wid
    · simp [List.find?, h]
    · have h' : (hd.1 == wid) = false := beq_eq_false_iff_ne.mpr h
      simpa [List.find?, h'] using ih

theorem lookupNode_updateNode (dag : CellDAG) (c : String) (f : CellNode → CellNode)
    (u : String) :
    lookupNode (updateNode dag c f) u =
      if u = c then (lookupNode dag u).map f else lookupNode dag u := by
  unfold lookupNode updateNode
  simp only
  induction dag.nodes with
  | nil => by_cases h : u = c <;> simp [h]
  | cons hd tl ih =>
    simp only [List.map_cons]
    have hdkey : (if (hd.1 == c) = true then (hd.1, f hd.2) else hd).1 = hd.1 := by
      split <;> rfl
    by_cases h2 : hd.1 = u
    · have e1 : ((if (hd.1 == c) = true then (hd.1, f hd.2) else hd).1 == u) = true := by
        rw [hdkey]; exact beq_iff_eq.mpr h2
      have e2 : (hd.1 == u) = true := beq_iff_eq.mpr h2
      simp only [List.find?_cons, e1, e2]
      by_cases h1 : hd.1 = c
      · have huc : u = c := h2 ▸ h1
        have hb : (hd.1 == c) = true := beq_iff_eq.mpr h1
        simp [hb, huc]
      · have huc : ¬ u = c := fun h => h1 (h2.trans h)
        have hb : (hd.1 == c) = false := beq_eq_false_iff_ne.mpr h1
        simp [hb, huc]
    · have e1 : ((if (hd.1 == c) = true then (hd.1, f hd.2) else hd).1 == u) = false := by
        rw [hdkey]; exact beq_eq_false_iff_ne.mpr h2
      have e2 : (hd.1 == u) = false := beq_eq_false_iff_ne.mpr h2
      simp only [List.find?_cons, e1, e2]
      exact ih

theorem keys_updateNode (dag : CellDAG) (c : String) (f : CellNode → CellNode) :
    (updateNode dag c f).keys = dag.keys := by
  unfold CellDAG.keys updateNode
  simp only
  induction dag.nodes with
  | nil => rfl
  | cons hd tl ih =>
    by_cases h : hd.1 = c <;> simp [h] at * <;> simpa using ih

theorem lookupNode_append_one (dag : CellDAG) (c : String) (n : CellNode)
    (rest : List String) (rest2 : List String) (rest3 : List String) (u : String) :
    lookupNode { nodes := dag.nodes ++ [(c, n)], completed_ids := rest,
                 running_ids := rest2, failed_ids := rest3 } u =
      ((lookupNode dag u).orElse (fun _ => if u = c then some n else none)) := by
  unfold lookupNode
  simp only
  induction dag.nodes with
  | nil =>
    by_cases h : c = u
    · have e : (c == u) = true := beq_iff_eq.mpr h
      simp only [List.nil_append, List.find?_cons, List.find?_nil, e]
      simp [Option.orElse, h.symm]
    · have e : (c == u) = false := beq_eq_false_iff_ne.mpr h
      simp only [List.nil_append, List.find?_cons, List.find?_nil, e]
      simp only [Option.map_none', Option.orElse]
      rw [if_neg (fun h' => h h'.symm)]
  | cons hd tl ih =>
    by_cases h : hd.1 = u
    · have e : (hd.1 == u) = true := beq_iff_eq.mpr h
      simp only [List.cons_append, List.find?_cons, e]
      simp [Option.orElse]
    · have e : (hd.1 == u) = false := beq_eq_false_iff_ne.mpr h
      simp only [List.cons_append, List.find?_cons, e]
      exact ih

theorem lookupNode_eq_none_iff (dag : CellDAG) (u : String) :
    lookupNode dag u = none ↔ u ∉ dag.keys := by
  unfold lookupNode CellDAG.keys
  induction dag.nodes with
  | nil => simp
  | cons hd tl ih =>
    by_cases h : hd.1 = u
    · simp [List.find?, h]
    · have e : (hd.1 == u) = false := beq_eq_false_iff_ne.mpr h
      simp only [List.find?_cons, e, List.map_cons, List.mem_cons]
      rw [ih]
      constructor
      · intro hn hc
        rcases hc with hc | hc
        · exact h hc.symm
        · exact hn hc
      · intro hn
        exact fun hc => hn (Or.inr hc)

theorem lookupNode_mem (dag : CellDAG) (u : String) (n : CellNode)
    (h : lookupNode dag u = some n) : (u, n) ∈ dag.nodes := by
  unfold lookupNode at h
  match hf : dag.nodes.find? (fun p => p.1 == u) with
  | none => rw [hf] at h; simp at h
  | some p =>
    rw [hf] at h
    have hp := List.find?_some hf
    have hmem := List.mem_of_find?_eq_some hf
    simp at h hp
    rw [← h, ← hp]
    exact hmem

theorem coreEq_refl (d : CellDAG) : coreEq d d := ⟨rfl, fun _ => rfl, rfl, rfl, rfl⟩

theorem coreEq_trans {d1 d2 d3 : CellDAG} (h12 : coreEq d1 d2) (h23 : coreEq d2 d3) :
    coreEq d1 d3 :=
  ⟨h12.1.trans h23.1, fun u => (h12.2.1 u).trans (h23.2.1 u),
   h12.2.2.1.trans h23.2.2.1, h12.2.2.2.1.trans h23.2.2.2.1,
   h12.2.2.2.2.trans h23.2.2.2.2⟩

theorem updateNode_coreEq (d : CellDAG) (c : String) (f : CellNode → CellNode)
    (hf : ∀ n, nodeCore (f n) = nodeCore n) : coreEq (updateNode d c f) d := by
  refine ⟨keys_updateNode d c f, fun u => ?_, rfl, rfl, rfl⟩
  rw [lookupNode_updateNode]
  by_cases h : u = c
  · rw [if_pos h]
    cases lookupNode d u with
    | none => rfl
    | some n => simp [hf n]
  · rw [if_neg h]

theorem foldl_coreEq {α : Type} (l : List α) (step : CellDAG → α → CellDAG)
    (d : CellDAG) (h : ∀ d' x, coreEq (step d' x) d') :
    coreEq (l.foldl step d) d := by
  induction l generalizing d with
  | nil => exact coreEq_refl d
  | cons x xs ih => exact coreEq_trans (ih (step d x)) (h d x)

theorem add_cell_spec (dag : CellDAG) (c : String) (deps : List String)
    (prio dur : Int) (hfresh : c ∉ dag.keys) :
    ∃ d', add_cell dag c deps prio dur = some d' ∧
      d'.keys = dag.keys ++ [c] ∧
      (∀ u, u ≠ c → (lookupNode d' u).map nodeCore = (lookupNode dag u).map nodeCore) ∧
      (lookupNode d' c).map nodeCore =
        some ⟨c, deps, .pending, prio,
          (if dur ≤ 0 then DEFAULT_ESTIMATED_DURATION else dur), none, none, 0⟩ ∧
      d'.completed_ids = dag.completed_ids ∧ d'.running_ids = dag.running_ids ∧
      d'.failed_ids = dag.failed_ids := by
  unfold add_cell
  rw [if_neg hfresh]
  simp only
  set node : CellNode :=
    { id := c, dependencies := deps, dependents := [],
      state := .pending, priority := prio,
      estimated_duration := if dur ≤ 0 then DEFAULT_ESTIMATED_DURATION else dur,
      started_at := none, completed_at := none, level := 0 } with hnode
  set d1 : CellDAG := { dag with nodes := dag.nodes ++ [(c, node)] } with hd1
  have hlook1 : ∀ u, lookupNode d1 u =
      ((lookupNode dag u).orElse (fun _ => if u = c then some node else none)) := by
    intro u
    exact lookupNode_append_one dag c node dag.completed_ids dag.running_ids dag.failed_ids u
  have hkeys1 : d1.keys = dag.keys ++ [c] := by
    simp [hd1, CellDAG.keys]
  have hcore2 : coreEq (deps.foldl (fun d dep_id =>
      if dep_id ∈ d.keys then
        updateNode d dep_id (fun n => { n with dependents := n.dependents ++ [c] })
      else d) d1) d1 := by
    apply foldl_coreEq
    intro d' x
    by_cases h : x ∈ d'.keys
    · rw [if_pos h]
      exact updateNode_coreEq d' x _ (fun n => rfl)
    · rw [if_neg h]
      exact coreEq_refl d'
  set d2 := deps.foldl (fun d dep_id =>
      if dep_id ∈ d.keys then
        updateNode d dep_id (fun n => { n with dependents := n.dependents ++ [c] })
      else d) d1 with hd2
  have hcore3 : coreEq (d2.keys.foldl (fun d existing_id =>
      match lookupNode d existing_id with
      | none => d
      | some existing =>
        if c ∈ existing.dependencies ∧ c ∉ existing.dependents then
          updateNode d c (fun n => { n with dependents := n.dependents ++ [existing_id] })
        else d) d2) d2 := by
    apply foldl_coreEq
    intro d' x
    match lookupNode d' x with
    | none => exact coreEq_refl d'
    | some existing =>
      simp only
      by_cases h : c ∈ existing.dependencies ∧ c ∉ existing.dependents
      · rw [if_pos h]
        exact updateNode_coreEq d' c _ (fun n => rfl)
      · rw [if_neg h]
        exact coreEq_refl d'
  have hcore : coreEq (d2.keys.foldl (fun d existing_id =>
      match lookupNode d existing_id with
      | none => d
      | some existing =>
        if c ∈ existing.dependencies ∧ c ∉ existing.dependents then
          updateNode d c (fun n => { n with dependents := n.dependents ++ [existing_id] })
        else d) d2) d1 := coreEq_trans hcore3 hcore2
  refine ⟨_, rfl, ?_, ?_, ?_, ?_, ?_, ?_⟩
  · rw [hcore.1, hkeys1]
  · intro u hu
    rw [hcore.2.1 u, hlook1 u]
    have hnone : lookupNode dag c = none := (lookupNode_eq_none_iff dag c).mpr hfresh
    cases hl : lookupNode dag u with
    | none => simp [Option.orElse, hu]
    | some n => simp [Option.orElse]
  · rw [hcore.2.1 c, hlook1 c]
    have hnone : lookupNode dag c = none := (lookupNode_eq_none_iff dag c).mpr hfresh
    rw [hnone]
    simp [Option.orElse, nodeCore, hnode]
  · exact hcore.2.2.1
  · exact hcore.2.2.2.1
  · exact hcore.2.2.2.2

theorem map_nodeCore_eq_some {o : Option CellNode} {x : CellNodeCore}
    (h : o.map nodeCore = some x) : ∃ n, o = some n ∧ nodeCore n = x := by
  cases o with
  | none => simp at h
  | some n => exact ⟨n, rfl, by simpa using h⟩

theorem from_dict_fold (data : List (String × NodeDict))
    (hdn : (data.map Prod.fst).Nodup)
    (hdur : ∀ p ∈ data, 0 < p.2.estimated_duration)
    (d0 : CellDAG) (hfresh : ∀ k ∈ data.map Prod.fst, k ∉ d0.keys) :
    ∃ d', (data.foldlM (fun (d : CellDAG) p =>
        (add_cell d p.1 p.2.dependencies p.2.priority p.2.estimated_duration).map
          (fun d' => updateNode d' p.1 (fun n =>
            { n with state := p.2.state, level := p.2.level,
                     started_at := p.2.started_at, completed_at := p.2.completed_at })))
        d0) = some d' ∧
      d'.keys = d0.keys ++ data.map Prod.fst ∧
      (∀ u, u ∉ data.map Prod.fst →
        (lookupNode d' u).map nodeCore = (lookupNode d0 u).map nodeCore) ∧
      (∀ p ∈ data, (lookupNode d' p.1).map nodeCore =
        some ⟨p.1, p.2.dependencies, p.2.state, p.2.priority, p.2.estimated_duration,
              p.2.started_at, p.2.completed_at, p.2.level⟩) ∧
      d'.completed_ids = d0.completed_ids ∧ d'.running_ids = d0.running_ids ∧
      d'.failed_ids = d0.failed_ids := by
  induction data generalizing d0 with
  | nil => exact ⟨d0, rfl, by simp, fun u _ => rfl, by simp, rfl, rfl, rfl⟩
  | cons hd tl ih =>
    obtain ⟨d1, hadd, hkeys1, hother1, hself1, hc1, hr1, hf1⟩ :=
      add_cell_spec d0 hd.1 hd.2.dependencies hd.2.priority hd.2.estimated_duration
        (hfresh hd.1 (by simp))
    have hdn' : (tl.map Prod.fst).Nodup := (List.nodup_cons.mp (by simpa using hdn)).2
    have hhdtl : hd.1 ∉ tl.map Prod.fst := (List.nodup_cons.mp (by simpa using hdn)).1
    set ow : CellNode → CellNode := fun n =>
      { n with state := hd.2.state, level := hd.2.level,
               started_at := hd.2.started_at, completed_at := hd.2.completed_at } with how
    have hfresh' : ∀ k ∈ tl.map Prod.fst, k ∉ (updateNode d1 hd.1 ow).keys := by
      intro k hk
      rw [keys_updateNode, hkeys1]
      intro hmem
      rcases List.mem_append.mp hmem with hm | hm
      · exact hfresh k (by simp [hk]) hm
      · simp at hm
        exact hhdtl (hm ▸ hk)
    have hdur' : ∀ p ∈ tl, 0 < p.2.estimated_duration := fun p hp => hdur p (by simp [hp])
    obtain ⟨d', hfold, hkeys', hother', hmem', hc', hr', hf'⟩ := ih hdn' hdur'
      (updateNode d1 hd.1 ow) hfresh'
    refine ⟨d', ?_, ?_, ?_, ?_, ?_, ?_, ?_⟩
    · rw [List.foldlM_cons, hadd]
      simpa using hfold
    · rw [hkeys', keys_updateNode, hkeys1]
      simp
    · intro u hu
      have hu1 : u ∉ tl.map Prod.fst := fun h => hu (by simp [h])
      have hu2 : u ≠ hd.1 := fun h => hu (by simp [h])
      rw [hother' u hu1, lookupNode_updateNode, if_neg hu2]
      exact hother1 u hu2
    · intro p hp
      rcases List.mem_cons.mp hp with rfl | hp'
      · rw [hother' p.1 hhdtl, lookupNode_updateNode, if_pos rfl]
        obtain ⟨n, hn, hcore⟩ := map_nodeCore_eq_some hself1
        rw [hn]
        have hdurpos : ¬ p.2.estimated_duration ≤ 0 :=
          not_le.mpr (hdur p (by simp))
        simp only [Option.map_some']
        have : nodeCore (ow n) = ⟨n.id, n.dependencies, p.2.state, n.priority,
            n.estimated_duration, p.2.started_at, p.2.completed_at, p.2.level⟩ := rfl
        rw [this]
        have hid : n.id = p.1 := congrArg CellNodeCore.id hcore
        have hdeps : n.dependencies = p.2.dependencies :=
          congrArg CellNodeCore.dependencies hcore
        have hprio : n.priority = p.2.priority := congrArg CellNodeCore.priority hcore
        have hdur2 : n.estimated_duration = p.2.estimated_duration := by
          have := congrArg CellNodeCore.estimated_duration hcore
          simpa [if_neg hdurpos] using this
        rw [hid, hdeps, hprio, hdur2]
      · exact hmem' p hp'
    · exact hc'.trans hc1
    · exact hr'.trans hr1
    · exact hf'.trans hf1

/-- C3 (amended): for every well-formed DAG state (distinct keys, positive
durations), `from_dict (to_dict D)` succeeds
and reproduces the node ids in order, and for every node its dependencies,
state, priority, estimated duration, level, timestamps — together with the
completed/running/failed id sets.  (The `dependents` lists are reconstructed
in key order and may differ from `D`'s, so full equality fails: see the
counterexample.) -/
theorem C3_roundtrip_core (dag : CellDAG)
    (hdur : ∀ p ∈ dag.nodes, 0 < p.2.estimated_duration)
    (hkeys : dag.keys.Nodup) :
    ∃ dag', from_dict (to_dict dag) = some dag' ∧
      dag'.keys = dag.keys ∧
      (∀ u n, lookupNode dag u = some n → ∃ n', lookupNode dag' u = some n' ∧
        n'.dependencies = n.dependencies ∧ n'.state = n.state ∧
        n'.priority = n.priority ∧ n'.estimated_duration = n.estimated_duration ∧
        n'.level = n.level ∧ n'.started_at = n.started_at ∧
        n'.completed_at = n.completed_at) ∧
      dag'.completed_ids = dag.completed_ids ∧
      dag'.running_ids = dag.running_ids ∧ dag'.failed_ids = dag.failed_ids := by
  have hmapfst : (to_dict dag).nodes.map Prod.fst = dag.keys := by
    simp [to_dict, CellDAG.keys]
  have hdn : ((to_dict dag).nodes.map Prod.fst).Nodup := by rw [hmapfst]; exact hkeys
  have hdur' : ∀ p ∈ (to_dict dag).nodes, 0 < p.2.estimated_duration := by
    intro p hp
    simp only [to_dict, List.mem_map] at hp
    obtain ⟨q, hq, rfl⟩ := hp
    exact hdur q hq
  have hfresh : ∀ k ∈ (to_dict dag).nodes.map Prod.fst, k ∉ emptyDAG.keys := by
    intro k _ h
    simp [emptyDAG, CellDAG.keys] at h
  obtain ⟨d', hfold, hkeys', hother', hmem', hc', hr', hf'⟩ :=
    from_dict_fold (to_dict dag).nodes hdn hdur' emptyDAG hfresh
  refine ⟨⟨d'.nodes, (to_dict dag).completed_ids, (to_dict dag).running_ids,
    (to_dict dag).failed_ids⟩, ?_, ?_, ?_, rfl, rfl, rfl⟩
  · unfold from_dict
    rw [hfold]
    rfl
  · show d'.keys = dag.keys
    rw [hkeys', hmapfst]
    simp [emptyDAG, CellDAG.keys]
  · intro u n hn
    have hmemdag := lookupNode_mem dag u n hn
    have hdict : (u, (⟨n.dependencies, n.state, n.priority, n.estimated_duration,
        n.level, n.started_at, n.completed_at⟩ : NodeDict)) ∈ (to_dict dag).nodes := by
      simp only [to_dict, List.mem_map]
      exact ⟨(u, n), hmemdag, rfl⟩
    have hcore := hmem' _ hdict
    have hlook : lookupNode ⟨d'.nodes, (to_dict dag).completed_ids,
        (to_dict dag).running_ids, (to_dict dag).failed_ids⟩ u = lookupNode d' u := rfl
    obtain ⟨n', hn', hcore'⟩ := map_nodeCore_eq_some hcore
    refine ⟨n', hlook.trans hn', ?_, ?_, ?_, ?_, ?_, ?_, ?_⟩
    · exact congrArg CellNodeCore.dependencies hcore'
    · exact congrArg CellNodeCore.state hcore'
    · exact congrArg CellNodeCore.priority hcore'
    · exact congrArg CellNodeCore.estimated_duration hcore'
    · exact congrArg CellNodeCore.level hcore'
    · exact congrArg CellNodeCore.started_at hcore'
    · exact congrArg CellNodeCore.completed_at hcore'

/-- Witness DAG for C3: two cells built through `add_cell`. -/
theorem C3_witness :
    ((∀ p ∈ c3witDag.nodes, 0 < p.2.estimated_duration) ∧
      c3witDag.keys.Nodup) ∧
    (∃ dag', from_dict (to_dict c3witDag) = some dag' ∧
      dag'.keys = c3witDag.keys ∧
      (∀ u n, lookupNode c3witDag u = some n → ∃ n', lookupNode dag' u = some n' ∧
        n'.dependencies = n.dependencies ∧ n'.state = n.state ∧
        n'.priority = n.priority ∧ n'.estimated_duration = n.estimated_duration ∧
        n'.level = n.level ∧ n'.started_at = n.started_at ∧
        n'.completed_at = n.completed_at) ∧
      dag'.completed_ids = c3witDag.completed_ids ∧
      dag'.running_ids = c3witDag.running_ids ∧
      dag'.failed_ids = c3witDag.failed_ids) :=
  ⟨⟨by decide, by decide⟩, C3_roundtrip_core c3witDag (by decide) (by decide)⟩

/-- C3 counterexample: on the DAG built by three `add_cell`s followed by
`update_dependencies(c, [a])` then `update_dependencies(b, [a])`, node `a`
has `dependents = [c, b]`, but the round-trip rebuild produces `[b, c]`, so
`from_dict(to_dict(D))` is not equal to `D`. -/
theorem C3_counterexample_dependents_order :
    (c3dag.map (fun d => (lookupNode d "a").map CellNode.dependents) =
      some (some ["c", "b"])) ∧
    ((c3dag.bind (fun d => from_dict (to_dict d))).map
        (fun d => (lookupNode d "a").map CellNode.dependents) =
      some (some ["b", "c"])) ∧
    c3dag.bind (fun d => from_dict (to_dict d)) ≠ c3dag := by
  refine ⟨by decide, by decide, by decide⟩

/-! ## Stable descending sort lemmas -/

theorem mem_insertByDesc (key : String → Int) (x y : String) (l : List String) :
    y ∈ insertByDesc key x l ↔ y = x ∨ y ∈ l := by
  induction l with
  | nil => simp [insertByDesc]
  | cons z zs ih =>
    unfold insertByDesc
    split
    · simp
    · simp only [List.mem_cons, ih]
      tauto

theorem insertByDesc_perm (key : String → Int) (x : String) (l : List String) :
    List.Perm (insertByDesc key x l) (x :: l) := by
  induction l with
  | nil => simp [insertByDesc]
  | cons z zs ih =>
    unfold insertByDesc
    split
    · exact List.Perm.refl _
    · exact (List.Perm.cons z ih).trans (List.Perm.swap x z zs)

theorem sortByDesc_perm (key : String → Int) (l : List String) :
    List.Perm (sortByDesc key l) l := by
  induction l with
  | nil => exact List.Perm.refl _
  | cons x xs ih =>
    exact (insertByDesc_perm key x (sortByDesc key xs)).trans (List.Perm.cons x ih)

theorem mem_sortByDesc (key : String → Int) (y : String) (l : List String) :
    y ∈ sortByDesc key l ↔ y ∈ l :=
  (sortByDesc_perm key l).mem_iff

theorem sorted_insertByDesc (key : String → Int) (x : String) (l : List String)
    (h : l.Pairwise (fun a b => key b ≤ key a)) :
    (insertByDesc key x l).Pairwise (fun a b => key b ≤ key a) := by
  induction l with
  | nil => simp [insertByDesc]
  | cons z zs ih =>
    rw [List.pairwise_cons] at h
    unfold insertByDesc
    split
    · next hzx =>
      rw [List.pairwise_cons]
      constructor
      · intro a ha
        rcases List.mem_cons.mp ha with rfl | ha'
        · exact hzx
        · exact le_trans (h.1 a ha') hzx
      · exact List.pairwise_cons.mpr h
    · next hzx =>
      rw [List.pairwise_cons]
      constructor
      · intro a ha
        rcases (mem_insertByDesc key x a zs).mp ha with rfl | ha'
        · exact le_of_lt (lt_of_not_ge hzx)
        · exact h.1 a ha'
      · exact ih h.2

theorem sorted_sortByDesc (key : String → Int) (l : List String) :
    (sortByDesc key l).Pairwise (fun a b => key b ≤ key a) := by
  induction l with
  | nil => simp [sortByDesc]
  | cons x xs ih => exact sorted_insertByDesc key x (sortByDesc key xs) ih

theorem sortByDesc_head_max (key : String → Int) (l : List String) (h r : _)
    (hsort : sortByDesc key l = h :: r) : ∀ b ∈ h :: r, key b ≤ key h := by
  have hs := sorted_sortByDesc key l
  rw [hsort, List.pairwise_cons] at hs
  intro b hb
  rcases List.mem_cons.mp hb with rfl | hb'
  · exact le_refl _
  · exact hs.1 b hb'

/-! ## Claim C5 — readiness characterisation -/

theorem find?_key_of_mem_nodup (l : List (String × CellNode)) (u : String)
    (n : CellNode) (hk : (l.map Prod.fst).Nodup) (h : (u, n) ∈ l) :
    (l.find? (fun p => p.1 == u)).map Prod.snd = some n := by
  induction l with
  | nil => simp at h
  | cons hd tl ih =>
    rw [List.map_cons, List.nodup_cons] at hk
    rcases List.mem_cons.mp h with rfl | h2
    · have e : ((u, n).1 == u) = true := beq_iff_eq.mpr rfl
      simp only [List.find?_cons, e]
      rfl
    · have hne : hd.1 ≠ u := by
        intro he
        exact hk.1 (he ▸ (List.mem_map.mpr ⟨(u, n), h2, rfl⟩))
      have e : (hd.1 == u) = false := beq_eq_false_iff_ne.mpr hne
      rw [List.find?_cons_of_neg _ (by simp [e])]
      exact ih hk.2 h2

theorem lookupNode_of_mem_nodup (dag : CellDAG) (u : String) (n : CellNode)
    (hkeys : dag.keys.Nodup) (h : (u, n) ∈ dag.nodes) :
    lookupNode dag u = some n :=
  find?_key_of_mem_nodup dag.nodes u n hkeys h

/-- C5 (amended): for every DAG state with well-formed node records, a cell
is in `get_ready_cells()` iff its node is pending, every dependency id is in
the completed-id set, *and* the cell is not in the running-id set; the
returned list is sorted by descending priority.  (The third conjunct is
missing from the claim and refutable: see the counterexample.) -/
theorem C5_ready_characterisation (dag : CellDAG)
    (hkeys : dag.keys.Nodup) (hid : ∀ p ∈ dag.nodes, p.2.id = p.1) :
    (∀ u, u ∈ get_ready_cells dag ↔
      ∃ n, lookupNode dag u = some n ∧ n.state = CellState.pending ∧
        (∀ d ∈ n.dependencies, d ∈ dag.completed_ids) ∧ u ∉ dag.running_ids) ∧
    (get_ready_cells dag).Pairwise (fun a b => prioOf dag b ≤ prioOf dag a) := by
  constructor
  · intro u
    unfold get_ready_cells
    rw [mem_sortByDesc, List.mem_filterMap]
    constructor
    · rintro ⟨p, hp, hsome⟩
      by_cases hcs : can_start p.2 dag.running_ids dag.completed_ids
      · rw [if_pos hcs] at hsome
        obtain rfl := Option.some.inj hsome
        refine ⟨p.2, lookupNode_of_mem_nodup dag p.1 p.2 hkeys hp, ?_, ?_, ?_⟩
        · have := (Bool.and_eq_true _ _).mp hcs
          have h1 := (Bool.and_eq_true _ _).mp this.1
          exact beq_iff_eq.mp h1.1
        · intro d hd
          have := (Bool.and_eq_true _ _).mp hcs
          have h2 := (Bool.and_eq_true _ _).mp this.1
          have := (List.all_eq_true).mp h2.2 d hd
          exact of_decide_eq_true this
        · have := (Bool.and_eq_true _ _).mp hcs
          have h3 := this.2
          rw [Bool.not_eq_true', decide_eq_false_iff_not] at h3
          exact (hid p hp) ▸ h3
      · rw [if_neg hcs] at hsome
        simp at hsome
    · rintro ⟨n, hn, hpend, hdeps, hrun⟩
      have hmem := lookupNode_mem dag u n hn
      refine ⟨(u, n), hmem, ?_⟩
      have hcs : can_start n dag.running_ids dag.completed_ids = true := by
        unfold can_start
        rw [Bool.and_eq_true, Bool.and_eq_true]
        refine ⟨⟨beq_iff_eq.mpr hpend, ?_⟩, ?_⟩
        · exact List.all_eq_true.mpr (fun d hd => decide_eq_true (hdeps d hd))
        · rw [Bool.not_eq_true', decide_eq_false_iff_not]
          exact (hid (u, n) hmem) ▸ hrun
      rw [if_pos hcs]
  · exact sorted_sortByDesc (prioOf dag) _

/-- Witness for C5 on a concrete two-cell DAG. -/
theorem C5_witness :
    (c3witDag.keys.Nodup ∧ (∀ p ∈ c3witDag.nodes, p.2.id = p.1)) ∧
    (("a" ∈ get_ready_cells c3witDag ↔
      ∃ n, lookupNode c3witDag "a" = some n ∧ n.state = CellState.pending ∧
        (∀ d ∈ n.dependencies, d ∈ c3witDag.completed_ids) ∧
        "a" ∉ c3witDag.running_ids) ∧
     (get_ready_cells c3witDag).Pairwise
       (fun a b => prioOf c3witDag b ≤ prioOf c3witDag a)) :=
  ⟨⟨by decide, by decide⟩,
    ⟨(C5_ready_characterisation c3witDag (by decide) (by decide)).1 "a",
     (C5_ready_characterisation c3witDag (by decide) (by decide)).2⟩⟩

/-- C5 counterexample: after `add_cell(u)`, `mark_running(u)`,
`remove_cell(u)`, `add_cell(u)` — all succeeding public operations — the
cell `u` is pending with every dependency completed (vacuously), yet
`get_ready_cells()` returns the empty list, because `u` was never discarded
from `_running_ids`. -/
theorem C5_counterexample_stale_running_ids :
    c5dag.map get_ready_cells = some [] ∧
    c5dag.map (fun d => (lookupNode d "u").map (fun n => n.state)) =
      some (some CellState.pending) ∧
    c5dag.map (fun d => (lookupNode d "u").map (fun n =>
      decide (∀ dep ∈ n.dependencies, dep ∈ d.completed_ids))) = some (some true) := by
  refine ⟨by decide, by decide, by decide⟩

/-! ## Claim C6 — current_task iff busy -/

theorem taskIff_updateWorker (p : WorkerPool) (wid : String) (f : Worker → Worker)
    (hp : ∀ pr ∈ p.workers, taskIffBusyOrTimeout pr.2)
    (hf : ∀ w, taskIffBusyOrTimeout (f w)) :
    ∀ pr ∈ (updateWorker p wid f).workers, taskIffBusyOrTimeout pr.2 := by
  intro pr hpr
  unfold updateWorker at hpr
  simp only [List.mem_map] at hpr
  obtain ⟨q, hq, heq⟩ := hpr
  by_cases h : q.1 = wid
  · have hb : (q.1 == wid) = true := beq_iff_eq.mpr h
    rw [if_pos hb] at heq
    rw [← heq]
    exact hf q.2
  · have hb : (q.1 == wid) = false := beq_eq_false_iff_ne.mpr h
    rw [if_neg (by simp [hb])] at heq
    rw [← heq]
    exact hp q hq

theorem taskIff_spawn (p : WorkerPool) (now : ℤ)
    (hp : ∀ pr ∈ p.workers, taskIffBusyOrTimeout pr.2) :
    ∀ pr ∈ (spawn_worker p now).1.workers, taskIffBusyOrTimeout pr.2 := by
  intro pr hpr
  unfold spawn_worker at hpr
  simp only [List.mem_append] at hpr
  rcases hpr with h | h
  · exact hp pr h
  · simp at h
    rw [h]
    unfold taskIffBusyOrTimeout
    simp

theorem taskIff_assign (p : WorkerPool) (task : WorkerTask) (now : ℤ)
    (hp : ∀ pr ∈ p.workers, taskIffBusyOrTimeout pr.2) :
    ∀ pr ∈ (assign_cell p task now).1.workers, taskIffBusyOrTimeout pr.2 := by
  unfold assign_cell
  simp only
  split
  · exact hp
  · next pool1 wid hpicked =>
    apply taskIff_updateWorker
    · -- the picked pool is either the original one or a spawn
      split at hpicked
      · split at hpicked
        · have heq := Option.some.inj hpicked
          have h1 : pool1 = (spawn_worker p now).1 := by rw [heq]
          rw [h1]
          exact taskIff_spawn p now hp
        · exact absurd hpicked (by simp)
      · have heq := Option.some.inj hpicked
        have h1 : pool1 = p := by exact (congrArg Prod.fst heq).symm
        rw [h1]
        exact hp
    · intro w
      unfold taskIffBusyOrTimeout
      simp

theorem taskIff_release (p : WorkerPool) (worker_id : String) (success : Bool)
    (now : ℤ) (hp : ∀ pr ∈ p.workers, taskIffBusyOrTimeout pr.2) :
    ∀ pr ∈ (release_worker p worker_id success now).1.workers,
      taskIffBusyOrTimeout pr.2 := by
  unfold release_worker
  split
  · exact hp
  · simp only
    have hp1 : ∀ pr ∈ (updateWorker p worker_id (fun w =>
        let w1 := if success then { w with completed_tasks := w.completed_tasks + 1 }
                  else { w with failed_tasks := w.failed_tasks + 1 }
        { w1 with current_task := none, state := .idle, progress := 0,
                  worktree_path := none, last_heartbeat := some now })).workers,
        taskIffBusyOrTimeout pr.2 := by
      apply taskIff_updateWorker _ _ _ hp
      intro w
      unfold taskIffBusyOrTimeout
      simp
    split
    · apply taskIff_assign
      exact hp1
    · exact hp1

theorem taskIff_monitor (p : WorkerPool) (now timeout_seconds : ℤ)
    (hp : ∀ pr ∈ p.workers, taskIffBusyOrTimeout pr.2) :
    ∀ pr ∈ (monitor_heartbeat p now timeout_seconds).1.workers,
      taskIffBusyOrTimeout pr.2 := by
  unfold monitor_heartbeat
  simp only
  suffices h : ∀ (l : List (String × Worker)) (acc : List (String × Worker) × List String),
      (∀ pr ∈ l, taskIffBusyOrTimeout pr.2) →
      (∀ pr ∈ acc.1, taskIffBusyOrTimeout pr.2) →
      ∀ pr ∈ (l.foldl (monitorStep now timeout_seconds) acc).1,
        taskIffBusyOrTimeout pr.2 by
    exact h p.workers ([], []) hp (by simp)
  intro l
  induction l with
  | nil => intro acc _ hacc; exact hacc
  | cons q qs ih =>
    intro acc hl hacc
    rw [List.foldl_cons]
    apply ih _ (fun pr hpr => hl pr (List.mem_cons_of_mem q hpr))
    intro pr hpr
    unfold monitorStep at hpr
    split at hpr
    · rcases List.mem_append.mp hpr with h | h
      · exact hacc pr h
      · simp at h
        rw [h]
        exact hl q (List.mem_cons_self q qs)
    · split at hpr
      · next hcond =>
        rcases List.mem_append.mp hpr with h | h
        · exact hacc pr h
        · simp only [List.mem_singleton] at h
          subst h
          unfold taskIffBusyOrTimeout
          constructor
          · intro _
            exact Or.inr rfl
          · intro _
            have hq := hl q (List.mem_cons_self q qs)
            exact hq.mpr (Or.inl hcond.2)
      · rcases List.mem_append.mp hpr with h | h
        · exact hacc pr h
        · simp at h
          rw [h]
          exact hl q (List.mem_cons_self q qs)

/-- C6 (amended): in every pool state reachable through assignment,
submission, release and heartbeat monitoring, a worker's `current_task` is
non-null iff its state is `busy` *or* `timeout` — heartbeat expiry flips a
busy worker to `timeout` without clearing its task, so the claimed
"non-null iff busy" invariant fails (see the counterexample). -/
theorem C6_task_iff_busy_or_timeout (p : WorkerPool) (hp : PoolReachable p) :
    ∀ pr ∈ p.workers,
      (pr.2.current_task ≠ none ↔
        (pr.2.state = WorkerState.busy ∨ pr.2.state = WorkerState.timeout)) := by
  have : ∀ pr ∈ p.workers, taskIffBusyOrTimeout pr.2 := by
    induction hp with
    | init max_workers cb => intro pr hpr; simp [mkPool] at hpr
    | assign task now _ ih => exact taskIff_assign _ task now ih
    | submit task now _ ih =>
      unfold submit_task
      split
      · next pool1 wid heq =>
        intro pr hpr
        have := taskIff_assign _ task now ih
        rw [heq] at this
        exact this pr hpr
      · next pool1 heq =>
        intro pr hpr
        have := taskIff_assign _ task now ih
        rw [heq] at this
        exact this pr hpr
    | release worker_id success now _ ih => exact taskIff_release _ worker_id success now ih
    | monitor now timeout_seconds _ ih => exact taskIff_monitor _ now timeout_seconds ih
  exact this

/-- Witness for C6 at a concrete reachable pool with one busy worker. -/
theorem C6_witness :
    PoolReachable c6wit ∧
    (∀ pr ∈ c6wit.workers,
      (pr.2.current_task ≠ none ↔
        (pr.2.state = WorkerState.busy ∨ pr.2.state = WorkerState.timeout))) :=
  have hreach : PoolReachable c6wit :=
    PoolReachable.assign ⟨"cell-9", .high, none⟩ 7 (PoolReachable.init 2 false)
  ⟨hreach, C6_task_iff_busy_or_timeout c6wit hreach⟩

/-- C6 counterexample: the reachable pool `c6pool` (assign at time 0,
monitor at time 1000 with timeout 300) has a worker in state `timeout`
whose `current_task` is still non-null, violating "non-null iff busy". -/
theorem C6_counterexample_timeout_keeps_task :
    PoolReachable c6pool ∧
    (lookupWorker c6pool "worker-1").map (fun w => (w.current_task.isSome, w.state)) =
      some (true, WorkerState.timeout) :=
  ⟨PoolReachable.monitor 1000 300
      (PoolReachable.assign ⟨"cell-1", .medium, none⟩ 0 (PoolReachable.init 3 false)),
    by decide⟩

/-! ## Claim C2 — blocker propagation -/

theorem flipEq_refl (d : CellDAG) : flipEq d d := fun _ => Or.inl rfl

theorem flipEq_trans {a b c : CellDAG} (hab : flipEq a b) (hbc : flipEq b c) :
    flipEq a c := by
  intro x
  rcases hbc x with hcb | ⟨hbp, hcb⟩
  · rcases hab x with hba | ⟨hap, hba⟩
    · exact Or.inl (hcb.trans hba)
    · exact Or.inr ⟨hap, hcb.trans hba⟩
  · rcases hab x with hba | ⟨hap, hba⟩
    · refine Or.inr ⟨?_, ?_⟩
      · unfold stateOf at hbp ⊢
        rw [← hba]
        exact hbp
      · rw [hcb, hba]
    · exfalso
      unfold stateOf at hap hbp
      cases hla : lookupNode a x with
      | none => rw [hla] at hap; simp at hap
      | some n =>
        rw [hla] at hba
        rw [hba] at hbp
        simp at hbp

theorem flipEq_state_not_pending {d1 d2 : CellDAG} (h : flipEq d1 d2) (x : String)
    (hx : stateOf d1 x ≠ some CellState.pending) :
    stateOf d2 x ≠ some CellState.pending := by
  rcases h x with heq | ⟨hp, _⟩
  · unfold stateOf
    rw [heq]
    exact hx
  · exact absurd hp hx

theorem flipEq_dependents {d1 d2 : CellDAG} (h : flipEq d1 d2) (x : String) :
    dependentsOf d2 x = dependentsOf d1 x := by
  rcases h x with heq | ⟨_, heq⟩ <;> unfold dependentsOf <;> rw [heq] <;>
    cases lookupNode d1 x <;> rfl

theorem flipEq_of_ne {d1 d2 : CellDAG} (h : flipEq d1 d2) (x : String)
    (hne : lookupNode d2 x ≠ lookupNode d1 x) :
    stateOf d1 x = some CellState.pending ∧ stateOf d2 x = some CellState.blocked := by
  rcases h x with heq | ⟨hp, heq⟩
  · exact absurd heq hne
  · refine ⟨hp, ?_⟩
    unfold stateOf at hp ⊢
    rw [heq]
    cases hla : lookupNode d1 x with
    | none => rw [hla] at hp; simp at hp
    | some n => rfl

theorem map_nonkey_id (l : List (String × CellNode)) (y : String)
    (f : CellNode → CellNode) (h : ∀ p ∈ l, p.1 ≠ y) :
    l.map (fun p => if p.1 == y then (p.1, f p.2) else p) = l := by
  induction l with
  | nil => rfl
  | cons hd tl ih =>
    have e : (hd.1 == y) = false :=
      beq_eq_false_iff_ne.mpr (h hd (List.mem_cons_self hd tl))
    simp only [List.map_cons, e]
    rw [ih (fun p hp => h p (List.mem_cons_of_mem hd hp))]
    simp

theorem countP_flip (l : List (String × CellNode)) (y : String) (n : CellNode)
    (hk : (l.map Prod.fst).Nodup)
    (hl : (l.find? (fun p => p.1 == y)).map Prod.snd = some n)
    (hp : n.state = CellState.pending) :
    (l.map (fun p => if p.1 == y then
        (p.1, { p.2 with state := CellState.blocked }) else p)).countP
      (fun p => p.2.state == CellState.pending) + 1 =
    l.countP (fun p => p.2.state == CellState.pending) := by
  induction l with
  | nil => simp at hl
  | cons hd tl ih =>
    rw [List.map_cons, List.nodup_cons] at hk
    by_cases h : hd.1 = y
    · have e : (hd.1 == y) = true := beq_iff_eq.mpr h
      simp only [List.find?_cons, e, Option.map_some'] at hl
      obtain rfl := Option.some.inj hl
      have htl : tl.map (fun p => if p.1 == y then
          (p.1, { p.2 with state := CellState.blocked }) else p) = tl := by
        refine map_nonkey_id tl y (fun m => { m with state := CellState.blocked }) ?_
        intro p hpmem hpy
        apply hk.1
        rw [h, ← hpy]
        exact List.mem_map.mpr ⟨p, hpmem, rfl⟩
      simp only [List.map_cons, e, if_true, List.countP_cons, htl]
      have e1 : (({ hd.2 with state := CellState.blocked } : CellNode).state ==
          CellState.pending) = false := by simp
      have e2 : (hd.2.state == CellState.pending) = true := beq_iff_eq.mpr hp
      simp [e1, e2]
    · have e : (hd.1 == y) = false := beq_eq_false_iff_ne.mpr h
      simp only [List.find?_cons, e] at hl
      have hrec := ih hk.2 hl
      rw [List.map_cons, List.countP_cons, List.countP_cons]
      rw [e]
      have hff : (if (false = true) then
          (hd.1, { hd.2 with state := CellState.blocked }) else hd) = hd :=
        if_neg (by simp)
      rw [hff]
      omega

theorem pendingCount_flip (d : CellDAG) (y : String) (n : CellNode)
    (hk : d.keys.Nodup) (hl : lookupNode d y = some n)
    (hp : n.state = CellState.pending) :
    pendingCount (updateNode d y (fun m => { m with state := CellState.blocked })) + 1 =
      pendingCount d := by
  unfold pendingCount updateNode
  exact countP_flip d.nodes y n hk hl hp

theorem blockFold_spec (ds : List String) :
    ∀ (d : CellDAG) (q : List String), d.keys.Nodup →
      flipEq d (ds.foldl blockStep (d, q)).1 ∧
      (∀ y ∈ ds, stateOf (ds.foldl blockStep (d, q)).1 y ≠ some CellState.pending) ∧
      (∀ z, lookupNode (ds.foldl blockStep (d, q)).1 z ≠ lookupNode d z →
        z ∈ (ds.foldl blockStep (d, q)).2) ∧
      pendingCount (ds.foldl blockStep (d, q)).1 + (ds.foldl blockStep (d, q)).2.length =
        pendingCount d + q.length ∧
      (ds.foldl blockStep (d, q)).1.keys = d.keys ∧
      (∀ z ∈ q, z ∈ (ds.foldl blockStep (d, q)).2) := by
  induction ds with
  | nil =>
    intro d q _
    exact ⟨flipEq_refl d, by simp, fun z hz => absurd rfl hz, by simp, rfl, fun z hz => hz⟩
  | cons y ys ih =>
    intro d q hk
    rw [List.foldl_cons]
    cases hl : lookupNode d y with
    | none =>
      have hbs : blockStep (d, q) y = (d, q) := by
        simp only [blockStep, hl]
      rw [hbs]
      obtain ⟨f1, f2, f3, f4, f5, f6⟩ := ih d q hk
      refine ⟨f1, ?_, f3, f4, f5, f6⟩
      intro z hz
      rcases List.mem_cons.mp hz with rfl | hz2
      · apply flipEq_state_not_pending f1
        unfold stateOf
        rw [hl]
        simp
      · exact f2 z hz2
    | some dn =>
      by_cases hdp : dn.state = CellState.pending
      · have hbs : blockStep (d, q) y =
            (updateNode d y (fun n => { n with state := CellState.blocked }), q ++ [y]) := by
          simp only [blockStep, hl, if_pos hdp]
        rw [hbs]
        set d1 := updateNode d y (fun m => { m with state := CellState.blocked }) with hd1
        have hk1 : d1.keys.Nodup := by rw [hd1, keys_updateNode]; exact hk
        obtain ⟨f1, f2, f3, f4, f5, f6⟩ := ih d1 (q ++ [y]) hk1
        have hflip1 : flipEq d d1 := by
          intro x
          by_cases hx : x = y
          · subst hx
            refine Or.inr ⟨?_, ?_⟩
            · unfold stateOf; rw [hl]; simp [hdp]
            · rw [hd1, lookupNode_updateNode, if_pos rfl]
          · rw [hd1, lookupNode_updateNode, if_neg hx]
            exact Or.inl rfl
        refine ⟨flipEq_trans hflip1 f1, ?_, ?_, ?_, ?_, ?_⟩
        · intro z hz
          rcases List.mem_cons.mp hz with rfl | hz2
          · apply flipEq_state_not_pending f1
            unfold stateOf
            rw [hd1, lookupNode_updateNode, if_pos rfl, hl]
            simp
          · exact f2 z hz2
        · intro z hz
          by_cases hz1 : lookupNode (ys.foldl blockStep (d1, q ++ [y])).1 z = lookupNode d1 z
          · have hzd : lookupNode d1 z ≠ lookupNode d z := by
              rw [← hz1]; exact hz
            have hzy : z = y := by
              by_contra hne
              rw [hd1, lookupNode_updateNode, if_neg hne] at hzd
              exact hzd rfl
            subst hzy
            exact f6 z (by simp)
          · exact f3 z hz1
        · have hpc : pendingCount d1 + 1 = pendingCount d := pendingCount_flip d y dn hk hl hdp
          have hf4 := f4
          simp only [List.length_append, List.length_singleton] at hf4
          omega
        · rw [f5, hd1, keys_updateNode]
        · intro z hz
          exact f6 z (by simp [hz])
      · have hbs : blockStep (d, q) y = (d, q) := by
          simp only [blockStep, hl, if_neg hdp]
        rw [hbs]
        obtain ⟨f1, f2, f3, f4, f5, f6⟩ := ih d q hk
        refine ⟨f1, ?_, f3, f4, f5, f6⟩
        intro z hz
        rcases List.mem_cons.mp hz with rfl | hz2
        · apply flipEq_state_not_pending f1
          unfold stateOf
          rw [hl]
          simp only [Option.map_some']
          intro hc
          exact hdp (Option.some.inj hc)
        · exact f2 z hz2

theorem propagateAux_spec (dag0 : CellDAG) :
    ∀ (fuel : Nat) (q vis : List String) (d : CellDAG),
      d.keys.Nodup →
      q.length + pendingCount d ≤ fuel →
      (∀ x ∈ vis, ∀ y ∈ dependentsOf d x, stateOf d y ≠ some CellState.pending) →
      (∀ x, lookupNode d x ≠ lookupNode dag0 x → x ∈ q ∨ x ∈ vis) →
      flipEq d (propagateAux fuel q vis d) ∧
      (∀ x, (x ∈ q ∨ x ∈ vis ∨
          lookupNode (propagateAux fuel q vis d) x ≠ lookupNode dag0 x) →
        ∀ y ∈ dependentsOf (propagateAux fuel q vis d) x,
          stateOf (propagateAux fuel q vis d) y ≠ some CellState.pending) := by
  intro fuel
  induction fuel with
  | zero =>
    intro q vis d _ hfuel hvis hq
    have hqnil : q = [] := by
      cases q with
      | nil => rfl
      | cons a l => simp at hfuel
    subst hqnil
    refine ⟨flipEq_refl d, ?_⟩
    intro x hx y hy
    rcases hx with hx | hx | hx
    · simp at hx
    · exact hvis x hx y hy
    · rcases hq x hx with h | h
      · simp at h
      · exact hvis x h y hy
  | succ fuel ih =>
    intro q vis d hk hfuel hvis hq
    match q with
    | [] =>
      refine ⟨flipEq_refl d, ?_⟩
      intro x hx y hy
      rcases hx with hx | hx | hx
      · simp at hx
      · exact hvis x hx y hy
      · rcases hq x hx with h | h
        · simp at h
        · exact hvis x h y hy
    | current :: rest =>
      by_cases hcv : current ∈ vis
      · rw [show propagateAux (fuel + 1) (current :: rest) vis d =
            propagateAux fuel rest vis d by rw [propagateAux]; rw [if_pos hcv]]
        have hfuel' : rest.length + pendingCount d ≤ fuel := by
          simp only [List.length_cons] at hfuel; omega
        have hq' : ∀ x, lookupNode d x ≠ lookupNode dag0 x → x ∈ rest ∨ x ∈ vis := by
          intro x hx
          rcases hq x hx with h | h
          · rcases List.mem_cons.mp h with rfl | h'
            · exact Or.inr hcv
            · exact Or.inl h'
          · exact Or.inr h
        obtain ⟨hA, hB⟩ := ih rest vis d hk hfuel' hvis hq'
        refine ⟨hA, ?_⟩
        intro x hx
        rcases hx with hx | hx | hx
        · rcases List.mem_cons.mp hx with rfl | h'
          · exact hB x (Or.inr (Or.inl hcv))
          · exact hB x (Or.inl h')
        · exact hB x (Or.inr (Or.inl hx))
        · exact hB x (Or.inr (Or.inr hx))
      · cases hl : lookupNode d current with
        | none =>
          rw [show propagateAux (fuel + 1) (current :: rest) vis d =
              propagateAux fuel rest (current :: vis) d by
            rw [propagateAux]; rw [if_neg hcv]; simp only [hl]]
          have hfuel' : rest.length + pendingCount d ≤ fuel := by
            simp only [List.length_cons] at hfuel; omega
          have hvis' : ∀ x ∈ current :: vis, ∀ y ∈ dependentsOf d x,
              stateOf d y ≠ some CellState.pending := by
            intro x hx y hy
            rcases List.mem_cons.mp hx with rfl | hx'
            · unfold dependentsOf at hy
              rw [hl] at hy
              simp at hy
            · exact hvis x hx' y hy
          have hq' : ∀ x, lookupNode d x ≠ lookupNode dag0 x →
              x ∈ rest ∨ x ∈ current :: vis := by
            intro x hx
            rcases hq x hx with h | h
            · rcases List.mem_cons.mp h with rfl | h'
              · exact Or.inr (List.mem_cons_self _ _)
              · exact Or.inl h'
            · exact Or.inr (List.mem_cons_of_mem _ h)
          obtain ⟨hA, hB⟩ := ih rest (current :: vis) d hk hfuel' hvis' hq'
          refine ⟨hA, ?_⟩
          intro x hx
          rcases hx with hx | hx | hx
          · rcases List.mem_cons.mp hx with rfl | h'
            · exact hB x (Or.inr (Or.inl (List.mem_cons_self _ _)))
            · exact hB x (Or.inl h')
          · exact hB x (Or.inr (Or.inl (List.mem_cons_of_mem _ hx)))
          · exact hB x (Or.inr (Or.inr hx))
        | some node =>
          rw [show propagateAux (fuel + 1) (current :: rest) vis d =
              propagateAux fuel (rest ++ (node.dependents.foldl blockStep (d, [])).2)
                (current :: vis) (node.dependents.foldl blockStep (d, [])).1 by
            rw [propagateAux]; rw [if_neg hcv]; simp only [hl]]
          obtain ⟨f1, f2, f3, f4, f5, _⟩ := blockFold_spec node.dependents d [] hk
          set r := node.dependents.foldl blockStep (d, []) with hr
          have hk1 : r.1.keys.Nodup := by rw [f5]; exact hk
          have hfuel' : (rest ++ r.2).length + pendingCount r.1 ≤ fuel := by
            simp only [List.length_cons] at hfuel
            simp only [List.length_append]
            simp only [List.length_nil, Nat.add_zero] at f4
            omega
          have hvis' : ∀ x ∈ current :: vis, ∀ y ∈ dependentsOf r.1 x,
              stateOf r.1 y ≠ some CellState.pending := by
            intro x hx y hy
            rw [flipEq_dependents f1] at hy
            rcases List.mem_cons.mp hx with rfl | hx'
            · have : dependentsOf d x = node.dependents := by
                unfold dependentsOf
                rw [hl]
                rfl
              rw [this] at hy
              exact f2 y hy
            · exact flipEq_state_not_pending f1 y (hvis x hx' y hy)
          have hq' : ∀ x, lookupNode r.1 x ≠ lookupNode dag0 x →
              x ∈ rest ++ r.2 ∨ x ∈ current :: vis := by
            intro x hx
            by_cases hx1 : lookupNode r.1 x = lookupNode d x
            · rw [hx1] at hx
              rcases hq x hx with h | h
              · rcases List.mem_cons.mp h with rfl | h'
                · exact Or.inr (List.mem_cons_self _ _)
                · exact Or.inl (List.mem_append.mpr (Or.inl h'))
              · exact Or.inr (List.mem_cons_of_mem _ h)
            · exact Or.inl (List.mem_append.mpr (Or.inr (f3 x hx1)))
          obtain ⟨hA, hB⟩ := ih (rest ++ r.2) (current :: vis) r.1 hk1 hfuel' hvis' hq'
          refine ⟨flipEq_trans f1 hA, ?_⟩
          intro x hx
          rcases hx with hx | hx | hx
          · rcases List.mem_cons.mp hx with rfl | h'
            · exact hB x (Or.inr (Or.inl (List.mem_cons_self _ _)))
            · exact hB x (Or.inl (List.mem_append.mpr (Or.inl h')))
          · exact hB x (Or.inr (Or.inl (List.mem_cons_of_mem _ hx)))
          · exact hB x (Or.inr (Or.inr hx))

theorem mark_failed_eq (dag : CellDAG) (u : String) (nu : CellNode)
    (hlu : lookupNode dag u = some nu) :
    mark_failed dag u = (propagate_block (markFailedPre dag u) u, true) := by
  unfold mark_failed
  rw [hlu]
  rfl

/-- C2 (amended): after `mark_failed dag u`, every node `w ≠ u` reachable
from `u` along `dependents` edges through nodes that were pending at call
time ends up `blocked`.  The reachability relation must thread through
pending nodes only: the BFS body skips (and does not enqueue) any
non-pending dependent, so paths through completed, running, failed or
blocked intermediates are not propagated along. -/
theorem C2_mark_failed_blocks_pending_descendants (dag : CellDAG) (u w : String)
    (hkeys : dag.keys.Nodup) (hw : PendingReach dag u w) (hwu : w ≠ u) :
    stateOf (mark_failed dag u).1 w = some CellState.blocked := by
  cases hlu : lookupNode dag u with
  | none =>
    exfalso
    apply hwu
    clear hwu
    induction hw with
    | refl => rfl
    | step hx hmem hyu hpend ihx =>
      rw [ihx] at hmem
      unfold dependentsOf at hmem
      rw [hlu] at hmem
      simp at hmem
  | some nu =>
    rw [mark_failed_eq dag u nu hlu]
    show stateOf (propagate_block (markFailedPre dag u) u) w = some CellState.blocked
    set d2 := markFailedPre dag u with hd2
    unfold propagate_block
    have hd2look : ∀ x, x ≠ u → lookupNode d2 x = lookupNode dag x := by
      intro x hx
      rw [hd2]
      show lookupNode (updateNode dag u (fun n => { n with state := CellState.failed })) x =
        lookupNode dag x
      rw [lookupNode_updateNode]
      rw [if_neg hx]
    have hd2u : lookupNode d2 u = some { nu with state := CellState.failed } := by
      rw [hd2]
      show lookupNode (updateNode dag u (fun n => { n with state := CellState.failed })) u = _
      rw [lookupNode_updateNode, if_pos rfl, hlu]
      rfl
    have hd2keys : d2.keys.Nodup := by
      rw [hd2]
      show (updateNode dag u (fun n => { n with state := CellState.failed })).keys.Nodup
      rw [keys_updateNode]
      exact hkeys
    have hpc : pendingCount d2 ≤ d2.nodes.length := by
      unfold pendingCount
      exact List.countP_le_length _
    obtain ⟨hA, hB⟩ := propagateAux_spec d2 (d2.nodes.length + 1) [u] [] d2 hd2keys
      (by simp only [List.length_cons, List.length_nil]; omega)
      (by intro x hx; simp at hx)
      (by intro x hx; exact absurd rfl hx)
    set dfin := propagateAux (d2.nodes.length + 1) [u] [] d2 with hdfin
    have hQ : ∀ v, PendingReach dag u v →
        v = u ∨ (stateOf d2 v = some CellState.pending ∧
          stateOf dfin v = some CellState.blocked) := by
      intro v hv
      induction hv with
      | refl => exact Or.inl rfl
      | @step x y hx hmem hyu hpend ihx =>
        right
        have hyd2' : lookupNode d2 y = lookupNode dag y := hd2look y hyu
        have hyd2 : stateOf d2 y = some CellState.pending := by
          unfold stateOf
          rw [hyd2']
          exact hpend
        have hcov : x ∈ [u] ∨ x ∈ ([] : List String) ∨
            lookupNode dfin x ≠ lookupNode d2 x := by
          rcases ihx with rfl | ⟨hxp, hxb⟩
          · exact Or.inl (List.mem_singleton.mpr rfl)
          · right; right
            intro heq
            have hss : stateOf dfin x = stateOf d2 x := by
              unfold stateOf
              rw [heq]
            rw [hxb, hxp] at hss
            simp at hss
        have hdepfin : y ∈ dependentsOf dfin x := by
          rw [flipEq_dependents hA x]
          have hdd : dependentsOf d2 x = dependentsOf dag x := by
            by_cases hxu : x = u
            · subst hxu
              unfold dependentsOf
              rw [hd2u, hlu]
              rfl
            · unfold dependentsOf
              rw [hd2look x hxu]
          rw [hdd]
          exact hmem
        have hnp := hB x hcov y hdepfin
        rcases hA y with heq | ⟨hp2, hblk⟩
        · exfalso
          apply hnp
          unfold stateOf
          rw [heq]
          exact hyd2
        · refine ⟨hyd2, ?_⟩
          unfold stateOf
          rw [hblk]
          cases hly : lookupNode d2 y with
          | none =>
            unfold stateOf at hyd2
            rw [hly] at hyd2
            simp at hyd2
          | some n => rfl
    rcases hQ w hw with rfl | ⟨_, hb⟩
    · exact absurd rfl hwu
    · exact hb

/-- C2 witness: on the pending chain `a → b → c`, `c` is pending-reachable
from `a` and the theorem yields `blocked` for it after `mark_failed a`. -/
theorem C2_witness :
    c2witDag.keys.Nodup ∧ PendingReach c2witDag "a" "c" ∧ ("c" : String) ≠ "a" ∧
    stateOf (mark_failed c2witDag "a").1 "c" = some CellState.blocked := by
  have hk : c2witDag.keys.Nodup := by decide
  have h1 : PendingReach c2witDag "a" "b" :=
    PendingReach.step PendingReach.refl (by decide) (by decide) (by decide)
  have hreach : PendingReach c2witDag "a" "c" :=
    PendingReach.step h1 (by decide) (by decide) (by decide)
  exact ⟨hk, hreach, by decide,
    C2_mark_failed_blocks_pending_descendants c2witDag "a" "c" hk hreach (by decide)⟩

/-- C2 counterexample to the unamended claim: in `u → w1 → w2` with `w1`
completed, `w2` is reachable from `u` along `dependents` edges and pending
at call time, yet `mark_failed u` leaves it pending — the BFS never
enqueues the non-pending `w1`, so propagation stops before `w2`. -/
theorem C2_counterexample_completed_gap :
    c2dag = some c2cexDag ∧
    ReachDependents c2cexDag "u" "w2" ∧
    ("w2" : String) ≠ "u" ∧
    stateOf c2cexDag "w2" = some CellState.pending ∧
    stateOf (mark_failed c2cexDag "u").1 "w2" = some CellState.pending := by
  refine ⟨by decide, ?_, by decide, by decide, by decide⟩
  exact @ReachDependents.step c2cexDag "u" "w1" "w2"
    (@ReachDependents.step c2cexDag "u" "u" "w1" ReachDependents.refl (by decide))
    (by decide)

/-! ## Claim C1 — topological sort

First the `detect_cycle` DFS: a cycle-free run yields a global finishing
order in which every present node's dependencies finish strictly earlier. -/

theorem contains_eq_true_of_mem {l : List String} {x : String} (h : x ∈ l) :
    l.contains x = true := List.elem_iff.mpr h

theorem contains_eq_false_of_not_mem {l : List String} {x : String} (h : x ∉ l) :
    l.contains x = false := by
  cases hc : l.contains x
  · rfl
  · exact absurd (List.elem_iff.mp hc) h

theorem not_contains_true {l : List String} {x : String} (h : x ∉ l) :
    (!l.contains x) = true := by
  rw [contains_eq_false_of_not_mem h]
  rfl

theorem not_contains_ne_true {l : List String} {x : String} (h : x ∈ l) :
    ¬((!l.contains x) = true) := by
  rw [contains_eq_true_of_mem h]
  simp

theorem length_filter_notMem_le (U : List String) (v v' : List String)
    (hsub : ∀ x, x ∈ v → x ∈ v') :
    (U.filter (fun x => !v'.contains x)).length ≤
      (U.filter (fun x => !v.contains x)).length := by
  induction U with
  | nil => simp
  | cons hd tl ih =>
    rw [List.filter_cons, List.filter_cons]
    by_cases h : hd ∈ v
    · rw [if_neg (not_contains_ne_true h), if_neg (not_contains_ne_true (hsub hd h))]
      exact ih
    · rw [if_pos (not_contains_true h)]
      by_cases h' : hd ∈ v'
      · rw [if_neg (not_contains_ne_true h')]
        rw [List.length_cons]
        omega
      · rw [if_pos (not_contains_true h')]
        rw [List.length_cons, List.length_cons]
        omega

theorem length_filter_notMem_lt (U : List String) (v v' : List String)
    (hsub : ∀ x, x ∈ v → x ∈ v') (a : String) (haU : a ∈ U) (hav : a ∉ v)
    (hav' : a ∈ v') :
    (U.filter (fun x => !v'.contains x)).length <
      (U.filter (fun x => !v.contains x)).length := by
  induction U with
  | nil => cases haU
  | cons hd tl ih =>
    rw [List.filter_cons, List.filter_cons]
    by_cases hha : hd = a
    · subst hha
      rw [if_pos (not_contains_true hav), if_neg (not_contains_ne_true hav')]
      rw [List.length_cons]
      have hle := length_filter_notMem_le tl v v' hsub
      omega
    · have haU' : a ∈ tl := by
        rcases List.mem_cons.mp haU with h | h
        · exact absurd h.symm hha
        · exact h
      have hlt := ih haU'
      by_cases h : hd ∈ v
      · rw [if_neg (not_contains_ne_true h), if_neg (not_contains_ne_true (hsub hd h))]
        exact hlt
      · rw [if_pos (not_contains_true h)]
        by_cases h' : hd ∈ v'
        · rw [if_neg (not_contains_ne_true h')]
          rw [List.length_cons]
          omega
        · rw [if_pos (not_contains_true h')]
          rw [List.length_cons, List.length_cons]
          omega

theorem lookup_of_mem_keys (dag : CellDAG) (HK : dag.keys.Nodup) (w : String)
    (hw : w ∈ dag.keys) : ∃ n, lookupNode dag w = some n ∧ (w, n) ∈ dag.nodes := by
  unfold CellDAG.keys at hw
  obtain ⟨p, hp, hp1⟩ := List.mem_map.mp hw
  have hmem : (w, p.2) ∈ dag.nodes := by
    rw [← hp1]
    exact hp
  exact ⟨p.2, lookupNode_of_mem_nodup dag w p.2 HK hmem, hmem⟩

theorem mem_keys_of_lookup (dag : CellDAG) (u : String) (n : CellNode)
    (h : lookupNode dag u = some n) : u ∈ dag.keys := by
  unfold CellDAG.keys
  exact List.mem_map.mpr ⟨(u, n), lookupNode_mem dag u n h, rfl⟩

theorem dfsDeps_good (dag : CellDAG) (F : Nat)
    (visit : DfsSt → String → DfsSt × Option (List String))
    (hvisit : VisitGood dag F visit) :
    ∀ (ds : List String) (s : DfsSt) (node_id : String) (L : List String)
      (s' : DfsSt) (res : Option (List String)),
      GoodSt dag s L → (∀ d ∈ ds, d ∈ dfsUniverse dag) →
      dfsUnseen dag s.visited < F →
      dfsDeps dag visit s node_id ds = (s', res) → res = none →
      ∃ E, GoodSt dag s' (L ++ E) ∧ s'.recStack = s.recStack ∧
        (∀ x ∈ s.visited, x ∈ s'.visited) ∧ (∀ d ∈ ds, d ∈ L ++ E) := by
  intro ds
  induction ds with
  | nil =>
    intro s node_id L s' res hG _ _ hd hnone
    cases hd
    refine ⟨[], by simpa using hG, rfl, fun x hx => hx, by simp⟩
  | cons dep ds ih =>
    intro s node_id L s' res hG hds hfuel hd hnone
    by_cases hv : dep ∈ s.visited
    · by_cases hr : dep ∈ s.recStack
      · rw [show dfsDeps dag visit s node_id (dep :: ds) =
            (s, some (buildCycle s.parent dep node_id (dag.nodes.length + 1))) by
          rw [dfsDeps]; rw [if_pos hv, if_pos hr]] at hd
        cases hd
        cases hnone
      · rw [show dfsDeps dag visit s node_id (dep :: ds) =
            dfsDeps dag visit s node_id ds by
          rw [dfsDeps]; rw [if_pos hv, if_neg hr]] at hd
        obtain ⟨E, h1, h2, h3, h4⟩ :=
          ih s node_id L s' res hG (fun d hdm => hds d (List.mem_cons_of_mem _ hdm))
            hfuel hd hnone
        refine ⟨E, h1, h2, h3, ?_⟩
        intro d hdm
        rcases List.mem_cons.mp hdm with rfl | hdm'
        · exact List.mem_append.mpr (Or.inl ((hG.2.1 d).mpr ⟨hv, hr⟩))
        · exact h4 d hdm'
    · rw [show dfsDeps dag visit s node_id (dep :: ds) =
          (match visit { s with parent := (dep, node_id) :: s.parent } dep with
           | (s2, some c) => (s2, some c)
           | (s2, none) => dfsDeps dag visit s2 node_id ds) by
        rw [dfsDeps]; rw [if_neg hv]] at hd
      cases hvis : visit { s with parent := (dep, node_id) :: s.parent } dep with
      | mk s2 r2 =>
        rw [hvis] at hd
        cases r2 with
        | some c =>
          cases hd
          cases hnone
        | none =>
          have hG' : GoodSt dag { s with parent := (dep, node_id) :: s.parent } L := hG
          obtain ⟨E1, hG1, hrec1, hmono1, hdep1⟩ :=
            hvisit { s with parent := (dep, node_id) :: s.parent } dep L s2 none hG' hv
              (hds dep (List.mem_cons_self _ _)) hfuel hvis rfl
          have hfuel2 : dfsUnseen dag s2.visited < F := by
            have hle := length_filter_notMem_le (dfsUniverse dag) s.visited s2.visited
              (fun x hx => hmono1 x hx)
            unfold dfsUnseen at hfuel ⊢
            omega
          obtain ⟨E2, h1, h2, h3, h4⟩ :=
            ih s2 node_id (L ++ E1) s' res hG1
              (fun d hdm => hds d (List.mem_cons_of_mem _ hdm)) hfuel2 hd hnone
          refine ⟨E1 ++ E2, ?_, ?_, ?_, ?_⟩
          · rw [← List.append_assoc]
            exact h1
          · rw [h2, hrec1]
          · intro x hx
            exact h3 x (hmono1 x hx)
          · intro d hdm
            rw [← List.append_assoc]
            rcases List.mem_cons.mp hdm with rfl | hdm'
            · exact List.mem_append.mpr (Or.inl hdep1)
            · exact h4 d hdm'

theorem dfsVisit_good (dag : CellDAG) :
    ∀ fuel, VisitGood dag fuel (dfsVisit dag fuel) := by
  intro fuel
  induction fuel with
  | zero =>
    intro s nid L s' res _ _ _ hfuel _ _
    exact absurd hfuel (Nat.not_lt_zero _)
  | succ fuel ih =>
    intro s nid L s' res hG hnv hnU hfuel hvis hnone
    obtain ⟨hnd, hbk, hord, hrv⟩ := hG
    have hnidL : nid ∉ L := fun hc => hnv ((hbk nid).mp hc).1
    have hnidR : nid ∉ s.recStack := fun hc => hnv (hrv nid hc)
    cases hl : lookupNode dag nid with
    | none =>
      rw [show dfsVisit dag (fuel + 1) s nid =
          ({ visited := nid :: s.visited, recStack := s.recStack,
             parent := s.parent }, none) by
        rw [dfsVisit]; simp only [hl]; rw [List.erase_cons_head]] at hvis
      cases hvis
      refine ⟨[nid], ?_, rfl, fun x hx => List.mem_cons_of_mem _ hx,
        List.mem_append.mpr (Or.inr (List.mem_singleton.mpr rfl))⟩
      refine ⟨?_, ?_, ?_, ?_⟩
      · rw [List.nodup_append]
        exact ⟨hnd, List.nodup_singleton _,
          fun a ha ha' => hnidL ((List.mem_singleton.mp ha') ▸ ha)⟩
      · intro x
        constructor
        · intro hx
          rcases List.mem_append.mp hx with hxL | hxnid
          · obtain ⟨h1, h2⟩ := (hbk x).mp hxL
            exact ⟨List.mem_cons_of_mem _ h1, h2⟩
          · obtain rfl := List.mem_singleton.mp hxnid
            exact ⟨List.mem_cons_self _ _, hnidR⟩
        · rintro ⟨h1, h2⟩
          rcases List.mem_cons.mp h1 with rfl | h1'
          · exact List.mem_append.mpr (Or.inr (List.mem_singleton.mpr rfl))
          · exact List.mem_append.mpr (Or.inl ((hbk x).mpr ⟨h1', h2⟩))
      · intro u nu hu huL v hv
        rcases List.mem_append.mp huL with huL' | hunid
        · obtain ⟨hvL, hvlt⟩ := hord u nu hu huL' v hv
          refine ⟨List.mem_append.mpr (Or.inl hvL), ?_⟩
          rw [List.indexOf_append_of_mem hvL, List.indexOf_append_of_mem huL']
          exact hvlt
        · obtain rfl := List.mem_singleton.mp hunid
          rw [hu] at hl
          cases hl
      · intro x hx
        exact List.mem_cons_of_mem _ (hrv x hx)
    | some node =>
      have hG1 : GoodSt dag ⟨nid :: s.visited, nid :: s.recStack, s.parent⟩ L := by
        refine ⟨hnd, ?_, hord, ?_⟩
        · intro x
          constructor
          · intro hx
            obtain ⟨h1, h2⟩ := (hbk x).mp hx
            have hxnid : x ≠ nid := fun hc => hnv (hc ▸ h1)
            exact ⟨List.mem_cons_of_mem _ h1,
              fun hc => (List.mem_cons.mp hc).elim hxnid h2⟩
          · rintro ⟨h1, h2⟩
            have hxnid : x ≠ nid := fun hc => h2 (hc ▸ List.mem_cons_self _ _)
            have h1' : x ∈ s.visited := by
              rcases List.mem_cons.mp h1 with hc | hc
              · exact absurd hc hxnid
              · exact hc
            exact (hbk x).mpr ⟨h1', fun hc => h2 (List.mem_cons_of_mem _ hc)⟩
        · intro x hx
          rcases List.mem_cons.mp hx with rfl | hx'
          · exact List.mem_cons_self _ _
          · exact List.mem_cons_of_mem _ (hrv x hx')
      have hds : ∀ d ∈ node.dependencies, d ∈ dfsUniverse dag := by
        intro d hdm
        unfold dfsUniverse
        refine List.mem_append.mpr (Or.inr ?_)
        rw [List.mem_flatten]
        exact ⟨node.dependencies,
          List.mem_map.mpr ⟨(nid, node), lookupNode_mem dag nid node hl, rfl⟩, hdm⟩
      have hfuel1 : dfsUnseen dag (nid :: s.visited) < fuel := by
        have hdec := length_filter_notMem_lt (dfsUniverse dag) s.visited
          (nid :: s.visited) (fun x hx => List.mem_cons_of_mem _ hx) nid hnU hnv
          (List.mem_cons_self _ _)
        unfold dfsUnseen at hfuel ⊢
        omega
      cases hd2 : dfsDeps dag (dfsVisit dag fuel)
          ⟨nid :: s.visited, nid :: s.recStack, s.parent⟩ nid node.dependencies with
      | mk s2 r2 =>
        rw [show dfsVisit dag (fuel + 1) s nid =
            (match dfsDeps dag (dfsVisit dag fuel)
                ⟨nid :: s.visited, nid :: s.recStack, s.parent⟩ nid
                node.dependencies with
             | (s2, some c) => (s2, some c)
             | (s2, none) => ({ s2 with recStack := s2.recStack.erase nid }, none))
            by rw [dfsVisit]; simp only [hl]] at hvis
        rw [hd2] at hvis
        cases r2 with
        | some c =>
          cases hvis
          cases hnone
        | none =>
          obtain ⟨E, hGE, hrecE, hmonoE, hallE⟩ :=
            dfsDeps_good dag fuel (dfsVisit dag fuel) ih node.dependencies
              ⟨nid :: s.visited, nid :: s.recStack, s.parent⟩ nid L s2 none hG1 hds
              hfuel1 hd2 rfl
          have hrecE' : s2.recStack = nid :: s.recStack := hrecE
          have herase : s2.recStack.erase nid = s.recStack := by
            rw [hrecE', List.erase_cons_head]
          cases hvis
          obtain ⟨hndE, hbkE, hordE, hrvE⟩ := hGE
          have hnidLE : nid ∉ L ++ E := fun hc =>
            ((hbkE nid).mp hc).2 (by rw [hrecE']; exact List.mem_cons_self _ _)
          refine ⟨E ++ [nid], ?_, ?_, ?_, ?_⟩
          · rw [← List.append_assoc]
            refine ⟨?_, ?_, ?_, ?_⟩
            · rw [List.nodup_append]
              exact ⟨hndE, List.nodup_singleton _,
                fun a ha ha' => hnidLE ((List.mem_singleton.mp ha') ▸ ha)⟩
            · intro x
              constructor
              · intro hx
                rcases List.mem_append.mp hx with hxL | hxnid
                · obtain ⟨h1, h2⟩ := (hbkE x).mp hxL
                  refine ⟨h1, ?_⟩
                  show x ∉ s2.recStack.erase nid
                  rw [herase]
                  intro hc
                  exact h2 (by rw [hrecE']; exact List.mem_cons_of_mem _ hc)
                · obtain rfl := List.mem_singleton.mp hxnid
                  refine ⟨hmonoE x (List.mem_cons_self _ _), ?_⟩
                  show x ∉ s2.recStack.erase x
                  rw [herase]
                  exact hnidR
              · rintro ⟨h1, h2⟩
                rw [show ({ s2 with recStack := s2.recStack.erase nid } :
                    DfsSt).recStack = s.recStack from herase] at h2
                by_cases hxnid : x = nid
                · exact List.mem_append.mpr (Or.inr (List.mem_singleton.mpr hxnid))
                · refine List.mem_append.mpr (Or.inl ((hbkE x).mpr ⟨h1, ?_⟩))
                  rw [hrecE']
                  intro hc
                  rcases List.mem_cons.mp hc with hc' | hc'
                  · exact hxnid hc'
                  · exact h2 hc'
            · intro u nu hu huL v hv
              rcases List.mem_append.mp huL with huL' | hunid
              · obtain ⟨hvL, hvlt⟩ := hordE u nu hu huL' v hv
                refine ⟨List.mem_append.mpr (Or.inl hvL), ?_⟩
                rw [List.indexOf_append_of_mem hvL, List.indexOf_append_of_mem huL']
                exact hvlt
              · obtain rfl := List.mem_singleton.mp hunid
                rw [hl] at hu
                obtain rfl := Option.some.inj hu
                have hvLE := hallE v hv
                refine ⟨List.mem_append.mpr (Or.inl hvLE), ?_⟩
                rw [List.indexOf_append_of_mem hvLE,
                  List.indexOf_append_of_not_mem hnidLE]
                have hlt := List.indexOf_lt_length.mpr hvLE
                have h0 : List.indexOf u [u] = 0 := by simp
                omega
            · intro x hx
              have hx' : x ∈ s2.recStack := by
                have : x ∈ s2.recStack.erase nid := hx
                exact List.mem_of_mem_erase this
              exact hrvE x hx'
          · exact herase
          · intro x hx
            exact hmonoE x (List.mem_cons_of_mem _ hx)
          · rw [← List.append_assoc]
            exact List.mem_append.mpr (Or.inr (List.mem_singleton.mpr rfl))

theorem detectStep_some (dag : CellDAG) (fuel : Nat) (ks : List String) (s : DfsSt)
    (c : List String) :
    ks.foldl (detectStep dag fuel) (s, some c) = (s, some c) := by
  induction ks with
  | nil => rfl
  | cons k ks ih =>
    rw [List.foldl_cons]
    exact ih

theorem detectFold_good (dag : CellDAG) :
    ∀ (ks : List String) (s : DfsSt) (L : List String) (s' : DfsSt)
      (res : Option (List String)),
      GoodSt dag s L → s.recStack = [] →
      (∀ k ∈ ks, k ∈ dfsUniverse dag) →
      ks.foldl (detectStep dag ((dfsUniverse dag).length + 1)) (s, none) = (s', res) →
      res = none →
      ∃ E, GoodSt dag s' (L ++ E) ∧ (∀ k ∈ ks, k ∈ L ++ E) := by
  intro ks
  induction ks with
  | nil =>
    intro s L s' res hG _ _ hfold _
    cases hfold
    exact ⟨[], by simpa using hG, by simp⟩
  | cons k ks ih =>
    intro s L s' res hG hrs hU hfold hnone
    rw [List.foldl_cons] at hfold
    by_cases hv : k ∈ s.visited
    · rw [show detectStep dag ((dfsUniverse dag).length + 1) (s, none) k = (s, none) by
        simp only [detectStep]; rw [if_pos hv]] at hfold
      obtain ⟨E, h1, h2⟩ := ih s L s' res hG hrs
        (fun x hx => hU x (List.mem_cons_of_mem _ hx)) hfold hnone
      refine ⟨E, h1, ?_⟩
      intro x hx
      rcases List.mem_cons.mp hx with rfl | hx'
      · refine List.mem_append.mpr (Or.inl ((hG.2.1 x).mpr ⟨hv, ?_⟩))
        rw [hrs]
        exact List.not_mem_nil x
      · exact h2 x hx'
    · rw [show detectStep dag ((dfsUniverse dag).length + 1) (s, none) k =
          dfsVisit dag ((dfsUniverse dag).length + 1) s k by
        simp only [detectStep]; rw [if_neg hv]] at hfold
      cases hvis : dfsVisit dag ((dfsUniverse dag).length + 1) s k with
      | mk sv rv =>
        rw [hvis] at hfold
        cases rv with
        | some c =>
          rw [detectStep_some] at hfold
          cases hfold
          cases hnone
        | none =>
          obtain ⟨E1, hG1, hrec1, hmono1, hk1⟩ :=
            dfsVisit_good dag ((dfsUniverse dag).length + 1) s k L sv none hG hv
              (hU k (List.mem_cons_self _ _))
              (by
                have hle : dfsUnseen dag s.visited ≤ (dfsUniverse dag).length :=
                  List.length_filter_le _ _
                omega)
              hvis rfl
          obtain ⟨E2, h1, h2⟩ := ih sv (L ++ E1) s' res hG1 (by rw [hrec1, hrs])
            (fun x hx => hU x (List.mem_cons_of_mem _ hx)) hfold hnone
          refine ⟨E1 ++ E2, ?_, ?_⟩
          · rw [← List.append_assoc]
            exact h1
          · intro x hx
            rw [← List.append_assoc]
            rcases List.mem_cons.mp hx with rfl | hx'
            · exact List.mem_append.mpr (Or.inl hk1)
            · exact h2 x hx'

/-- From a cycle-free `detect_cycle` run, a finishing order covering every
key in which each present node's dependencies appear strictly earlier. -/
theorem detect_cycle_good (dag : CellDAG) (h : detect_cycle dag = none) :
    ∃ L : List String, L.Nodup ∧ (∀ k ∈ dag.keys, k ∈ L) ∧
      (∀ u nu, lookupNode dag u = some nu → ∀ v ∈ nu.dependencies,
        v ∈ L ∧ L.indexOf v < L.indexOf u) := by
  unfold detect_cycle at h
  cases hfold : dag.keys.foldl (detectStep dag ((dfsUniverse dag).length + 1))
      (⟨[], [], []⟩, none) with
  | mk s' res =>
    rw [hfold] at h
    have hres : res = none := h
    have hinit : GoodSt dag ⟨[], [], []⟩ [] := by
      refine ⟨List.nodup_nil, ?_, ?_, ?_⟩
      · intro x
        constructor
        · intro hx
          exact absurd hx (List.not_mem_nil x)
        · rintro ⟨h1, _⟩
          exact absurd h1 (List.not_mem_nil x)
      · intro u nu _ hu
        exact absurd hu (List.not_mem_nil u)
      · intro x hx
        exact absurd hx (List.not_mem_nil x)
    obtain ⟨E, hGE, hkeys⟩ := detectFold_good dag dag.keys ⟨[], [], []⟩ [] s' res hinit
      rfl (fun k hk => by unfold dfsUniverse; exact List.mem_append.mpr (Or.inl hk))
      hfold hres
    refine ⟨[] ++ E, hGE.1, hkeys, ?_⟩
    intro u nu hu v hv
    exact hGE.2.2.1 u nu hu (hkeys u (mem_keys_of_lookup dag u nu hu)) v hv

/-! Kahn's algorithm: characterisation of the dependent-decrement fold. -/

theorem kahnFold_fst (ds : List String) :
    ∀ (f : String → Int) (q : List String) (w : String),
      (kahnFold ds f q).1 w = f w - (ds.count w : Int) := by
  induction ds with
  | nil =>
    intro f q w
    simp [kahnFold]
  | cons d ds ih =>
    intro f q w
    rw [show kahnFold (d :: ds) f q =
        kahnFold ds (updFn f d (f d - 1)) (if f d - 1 = 0 then q ++ [d] else q)
      from rfl]
    rw [ih]
    by_cases hw : w = d
    · subst hw
      have hcc : (w :: ds).count w = ds.count w + 1 := by
        rw [List.count_cons, beq_self_eq_true w]
        rfl
      rw [hcc, show updFn f w (f w - 1) w = f w - 1 by unfold updFn; rw [if_pos rfl]]
      push_cast
      omega
    · have hcc : (d :: ds).count w = ds.count w := by
        rw [List.count_cons, beq_eq_false_iff_ne.mpr (fun hc => hw hc.symm)]
        rfl
      rw [hcc, show updFn f d (f d - 1) w = f w by unfold updFn; rw [if_neg hw]]

theorem kahnFold_snd_mem (ds : List String) :
    ∀ (f : String → Int) (q : List String) (w : String),
      w ∈ (kahnFold ds f q).2 ↔
        w ∈ q ∨ (1 ≤ f w ∧ f w ≤ (ds.count w : Int)) := by
  induction ds with
  | nil =>
    intro f q w
    rw [show kahnFold [] f q = (f, q) from rfl]
    constructor
    · exact Or.inl
    · rintro (h | ⟨h1, h2⟩)
      · exact h
      · rw [List.count_nil] at h2
        exfalso
        omega
  | cons d ds ih =>
    intro f q w
    rw [show kahnFold (d :: ds) f q =
        kahnFold ds (updFn f d (f d - 1)) (if f d - 1 = 0 then q ++ [d] else q)
      from rfl]
    rw [ih]
    by_cases hw : w = d
    · subst hw
      have hupd : updFn f w (f w - 1) w = f w - 1 := by
        unfold updFn
        rw [if_pos rfl]
      have hcc : (w :: ds).count w = ds.count w + 1 := by
        rw [List.count_cons, beq_self_eq_true w]
        rfl
      rw [hupd, hcc]
      by_cases h0 : f w - 1 = 0
      · rw [if_pos h0]
        constructor
        · intro _
          right
          constructor
          · omega
          · push_cast
            omega
        · intro _
          exact Or.inl (List.mem_append.mpr (Or.inr (List.mem_singleton.mpr rfl)))
      · rw [if_neg h0]
        constructor
        · rintro (h | ⟨h1, h2⟩)
          · exact Or.inl h
          · refine Or.inr ⟨by omega, ?_⟩
            push_cast
            omega
        · rintro (h | ⟨h1, h2⟩)
          · exact Or.inl h
          · push_cast at h2
            refine Or.inr ⟨by omega, by omega⟩
    · have hupd : updFn f d (f d - 1) w = f w := by
        unfold updFn
        rw [if_neg hw]
      have hcc : (d :: ds).count w = ds.count w := by
        rw [List.count_cons, beq_eq_false_iff_ne.mpr (fun hc => hw hc.symm)]
        rfl
      rw [hupd, hcc]
      by_cases h0 : f d - 1 = 0
      · rw [if_pos h0]
        constructor
        · rintro (h | h)
          · rcases List.mem_append.mp h with h' | h'
            · exact Or.inl h'
            · exact absurd (List.mem_singleton.mp h') hw
          · exact Or.inr h
        · rintro (h | h)
          · exact Or.inl (List.mem_append.mpr (Or.inl h))
          · exact Or.inr h
      · rw [if_neg h0]

theorem kahnFold_snd_nodup (ds : List String) :
    ∀ (f : String → Int) (q : List String), q.Nodup → (∀ w ∈ q, f w ≤ 0) →
      (kahnFold ds f q).2.Nodup := by
  induction ds with
  | nil =>
    intro f q hq _
    exact hq
  | cons d ds ih =>
    intro f q hq hq0
    rw [show kahnFold (d :: ds) f q =
        kahnFold ds (updFn f d (f d - 1)) (if f d - 1 = 0 then q ++ [d] else q)
      from rfl]
    by_cases h0 : f d - 1 = 0
    · rw [if_pos h0]
      apply ih
      · rw [List.nodup_append]
        refine ⟨hq, List.nodup_singleton _, ?_⟩
        intro a ha ha'
        obtain rfl := List.mem_singleton.mp ha'
        have := hq0 a ha
        omega
      · intro w hw
        unfold updFn
        by_cases hwd : w = d
        · rw [if_pos hwd]
          omega
        · rw [if_neg hwd]
          rcases List.mem_append.mp hw with h' | h'
          · exact hq0 w h'
          · exact absurd (List.mem_singleton.mp h') hwd
    · rw [if_neg h0]
      apply ih
      · exact hq
      · intro w hw
        unfold updFn
        by_cases hwd : w = d
        · rw [if_pos hwd]
          rw [hwd] at hw
          have := hq0 d hw
          omega
        · rw [if_neg hwd]
          exact hq0 w hw

theorem kahnLoop_eq_trace (dag : CellDAG) :
    ∀ (fuel : Nat) (q : List String) (f : String → Int) (R : List String)
      (t : List (String × List String)),
      kahnLoop dag fuel q f R = (kahnLoopTrace dag fuel q f R t).map Prod.fst := by
  intro fuel
  induction fuel with
  | zero =>
    intro q f R t
    rw [kahnLoop, kahnLoopTrace]
    by_cases hq : q.isEmpty
    · rw [if_pos hq, if_pos hq]
      rfl
    · rw [if_neg hq, if_neg hq]
      rfl
  | succ fuel ih =>
    intro q f R t
    cases q with
    | nil => rfl
    | cons c rest' =>
      rw [kahnLoop, kahnLoopTrace]
      cases hs : sortByDesc (prioOf dag) (c :: rest') with
      | nil => rfl
      | cons nid rest =>
        cases hlk : lookupNode dag nid with
        | none =>
          simp only [hlk]
          rfl
        | some node =>
          simp only [hlk]
          exact ih _ _ _ _

theorem filter_append_singleton_count (l R : List String) (a : String) (ha : a ∉ R) :
    (l.filter (fun v => !R.contains v)).length =
      (l.filter (fun v => !(R ++ [a]).contains v)).length + l.count a := by
  induction l with
  | nil => simp
  | cons hd tl ih =>
    rw [List.filter_cons, List.filter_cons, List.count_cons]
    by_cases h1 : hd ∈ R
    · have e3 : (hd == a) = false := beq_eq_false_iff_ne.mpr (fun hc => ha (hc ▸ h1))
      rw [if_neg (not_contains_ne_true h1),
        if_neg (not_contains_ne_true (List.mem_append.mpr (Or.inl h1))), e3]
      simpa using ih
    · by_cases h2 : hd = a
      · subst h2
        have e2 : hd ∈ R ++ [hd] := List.mem_append.mpr (Or.inr (List.mem_singleton.mpr rfl))
        rw [if_pos (not_contains_true h1), if_neg (not_contains_ne_true e2),
          beq_self_eq_true hd]
        rw [List.length_cons]
        rw [show (if true = true then 1 else 0) = 1 from rfl]
        omega
      · have hna : hd ∉ R ++ [a] := by
          intro hc
          rcases List.mem_append.mp hc with hc' | hc'
          · exact h1 hc'
          · exact h2 (List.mem_singleton.mp hc')
        have e3 : (hd == a) = false := beq_eq_false_iff_ne.mpr h2
        rw [if_pos (not_contains_true h1), if_pos (not_contains_true hna), e3]
        rw [List.length_cons, List.length_cons]
        rw [show (if false = true then 1 else 0) = 0 from rfl]
        omega

theorem initQueue_sublist (dag : CellDAG) :
    List.Sublist (kahnInitQueue dag) dag.keys := by
  unfold kahnInitQueue CellDAG.keys
  induction dag.nodes with
  | nil => simp
  | cons p l ih =>
    rw [List.filterMap_cons, List.map_cons]
    by_cases hp : p.2.dependencies.isEmpty
    · rw [if_pos hp]
      exact List.Sublist.cons₂ _ ih
    · rw [if_neg hp]
      exact List.Sublist.cons _ ih

theorem mem_kahnInitQueue (dag : CellDAG) (HK : dag.keys.Nodup) (w : String)
    (nw : CellNode) (hl : lookupNode dag w = some nw) :
    w ∈ kahnInitQueue dag ↔ nw.dependencies = [] := by
  unfold kahnInitQueue
  constructor
  · intro hw
    obtain ⟨p, hp, hg⟩ := List.mem_filterMap.mp hw
    by_cases hc : p.2.dependencies.isEmpty
    · rw [if_pos hc] at hg
      obtain rfl := Option.some.inj hg
      have hlp : lookupNode dag p.1 = some p.2 :=
        lookupNode_of_mem_nodup dag p.1 p.2 HK (by exact hp)
      rw [hlp] at hl
      obtain rfl := Option.some.inj hl
      exact List.isEmpty_iff.mp hc
    · rw [if_neg hc] at hg
      cases hg
  · intro hd
    refine List.mem_filterMap.mpr ⟨(w, nw), lookupNode_mem dag w nw hl, ?_⟩
    simp [hd]

theorem filter_not_contains_nil (l : List String) :
    l.filter (fun v => !([] : List String).contains v) = l := by
  induction l with
  | nil => rfl
  | cons hd tl ih =>
    rw [List.filter_cons, if_pos (not_contains_true (List.not_mem_nil hd)), ih]

theorem kahnLoopTrace_good (dag : CellDAG) (L : List String)
    (HK : dag.keys.Nodup)
    (H1 : ∀ p ∈ dag.nodes, ∀ v ∈ p.2.dependencies, v ∈ dag.keys)
    (H3 : ∀ p ∈ dag.nodes, ∀ v ∈ p.2.dependents, v ∈ dag.keys)
    (H2 : ∀ p ∈ dag.nodes, ∀ pq ∈ dag.nodes,
        p.2.dependencies.count pq.1 = pq.2.dependents.count p.1)
    (hLord : ∀ u nu, lookupNode dag u = some nu → ∀ v ∈ nu.dependencies,
        v ∈ L ∧ L.indexOf v < L.indexOf u) :
    ∀ (fuel : Nat) (q : List String) (f : String → Int) (R : List String)
      (t : List (String × List String)),
      KahnInv dag R q f →
      (dag.keys.filter (fun k => !R.contains k)).length < fuel →
      ∃ D tD, kahnLoopTrace dag fuel q f R t = some (R ++ D, t ++ tD) ∧
        (R ++ D).Nodup ∧
        (∀ x, x ∈ R ++ D ↔ x ∈ dag.keys) ∧
        (∀ u nu, lookupNode dag u = some nu → u ∈ R ++ D →
          ∀ v ∈ nu.dependencies, v ∈ R ++ D ∧ (R ++ D).indexOf v < (R ++ D).indexOf u) ∧
        (∀ e ∈ tD, ∀ y ∈ e.2, prioOf dag y ≤ prioOf dag e.1) := by
  intro fuel
  induction fuel with
  | zero =>
    intro q f R t _ hfuel
    exact absurd hfuel (Nat.not_lt_zero _)
  | succ fuel ih =>
    intro q f R t hInv hfuel
    obtain ⟨hRnd, hRk, hqnd, hqm, hI3, hI4, hI5, hI6⟩ := hInv
    cases q with
    | nil =>
      have hcomp : ∀ n (k : String), L.indexOf k = n → k ∈ dag.keys → k ∈ R := by
        intro n
        induction n using Nat.strong_induction_on with
        | _ n ihn =>
          intro k hkn hkk
          by_contra hkR
          obtain ⟨nk, hlk, hpk⟩ := lookup_of_mem_keys dag HK k hkk
          have hq4 := hI4 k nk hlk hkR
          have hne : (nk.dependencies.filter (fun v => !R.contains v)).length ≠ 0 := by
            intro h0
            have hkq := hq4.mpr h0
            exact absurd hkq (List.not_mem_nil k)
          obtain ⟨v, hvd, hvb⟩ : ∃ v, v ∈ nk.dependencies ∧ (!R.contains v) = true := by
            cases hfl : nk.dependencies.filter (fun v => !R.contains v) with
            | nil => exact absurd (by rw [hfl]; rfl) hne
            | cons v vs =>
              have hv : v ∈ nk.dependencies.filter (fun v => !R.contains v) := by
                rw [hfl]
                exact List.mem_cons_self _ _
              exact ⟨v, (List.mem_filter.mp hv).1, (List.mem_filter.mp hv).2⟩
          have hvR : v ∉ R := by
            intro hc
            rw [contains_eq_true_of_mem hc] at hvb
            cases hvb
          have hvk : v ∈ dag.keys := H1 (k, nk) hpk v hvd
          obtain ⟨_, hvord⟩ := hLord k nk hlk v hvd
          exact hvR (ihn (L.indexOf v) (by omega) v rfl hvk)
      refine ⟨[], [], ?_, ?_, ?_, ?_, ?_⟩
      · rw [List.append_nil, List.append_nil]
        rfl
      · rw [List.append_nil]
        exact hRnd
      · intro x
        rw [List.append_nil]
        constructor
        · intro hx
          exact hRk x hx
        · intro hxk
          exact hcomp (L.indexOf x) x rfl hxk
      · intro u nu hu huR v hv
        rw [List.append_nil] at huR ⊢
        exact hI5 u nu hu huR v hv
      · intro e he
        exact absurd he (List.not_mem_nil e)
    | cons c rest' =>
      have hperm0 := sortByDesc_perm (prioOf dag) (c :: rest')
      cases hs : sortByDesc (prioOf dag) (c :: rest') with
      | nil =>
        rw [hs] at hperm0
        have := hperm0.length_eq
        simp at this
      | cons nid rest =>
        rw [hs] at hperm0
        have hnidq : nid ∈ c :: rest' := hperm0.subset (List.mem_cons_self _ _)
        have hndrest : (nid :: rest).Nodup := hperm0.nodup_iff.mpr hqnd
        obtain ⟨hnid_nrest, hrestnd⟩ := List.nodup_cons.mp hndrest
        obtain ⟨hnidk, hnidR⟩ := hqm nid hnidq
        obtain ⟨node, hlook, hpnode⟩ := lookup_of_mem_keys dag HK nid hnidk
        have hunf : kahnLoopTrace dag (fuel + 1) (c :: rest') f R t =
            kahnLoopTrace dag fuel (kahnFold node.dependents f rest).2
              (kahnFold node.dependents f rest).1 (R ++ [nid])
              (t ++ [(nid, nid :: rest)]) := by
          rw [kahnLoopTrace]
          rw [hs]
          simp only [hlook]
        have hdeg0 : (node.dependencies.filter (fun v => !R.contains v)).length = 0 :=
          (hI4 nid node hlook hnidR).mp hnidq
        have hdepsR : ∀ v ∈ node.dependencies, v ∈ R := by
          intro v hv
          have hfl : node.dependencies.filter (fun v => !R.contains v) = [] :=
            List.length_eq_zero.mp hdeg0
          have hnf := List.filter_eq_nil_iff.mp hfl v hv
          by_contra hvR
          rw [not_contains_true hvR] at hnf
          exact hnf rfl
        have hfnid : f nid = 0 := by
          have := hI3 nid node hlook hnidR
          rw [hdeg0] at this
          simpa using this
        have hrest_facts : ∀ w ∈ rest, w ∈ dag.keys ∧ w ∉ R ∧ f w = 0 := by
          intro w hw
          have hwq : w ∈ c :: rest' := hperm0.subset (List.mem_cons_of_mem _ hw)
          obtain ⟨hwk, hwR⟩ := hqm w hwq
          obtain ⟨nw, hlw, _⟩ := lookup_of_mem_keys dag HK w hwk
          have hw0 : (nw.dependencies.filter (fun v => !R.contains v)).length = 0 :=
            (hI4 w nw hlw hwR).mp hwq
          have hv3 := hI3 w nw hlw hwR
          rw [hw0] at hv3
          exact ⟨hwk, hwR, by simpa using hv3⟩
        have hcount : ∀ w nw, lookupNode dag w = some nw →
            node.dependents.count w = nw.dependencies.count nid :=
          fun w nw hlw =>
            (H2 (w, nw) (lookupNode_mem dag w nw hlw) (nid, node) hpnode).symm
        have hmemq2 : ∀ w, w ∈ (kahnFold node.dependents f rest).2 ↔
            w ∈ rest ∨ (1 ≤ f w ∧ f w ≤ (node.dependents.count w : Int)) :=
          fun w => kahnFold_snd_mem node.dependents f rest w
        have hf2v : ∀ w, (kahnFold node.dependents f rest).1 w =
            f w - (node.dependents.count w : Int) :=
          fun w => kahnFold_fst node.dependents f rest w
        have hInv' : KahnInv dag (R ++ [nid]) (kahnFold node.dependents f rest).2
            (kahnFold node.dependents f rest).1 := by
          refine ⟨?_, ?_, ?_, ?_, ?_, ?_, ?_, ?_⟩
          · rw [List.nodup_append]
            exact ⟨hRnd, List.nodup_singleton _,
              fun a ha ha' => hnidR ((List.mem_singleton.mp ha') ▸ ha)⟩
          · intro x hx
            rcases List.mem_append.mp hx with h | h
            · exact hRk x h
            · obtain rfl := List.mem_singleton.mp h
              exact hnidk
          · exact kahnFold_snd_nodup node.dependents f rest hrestnd
              (fun w hw => le_of_eq (hrest_facts w hw).2.2)
          · intro x hx
            rcases (hmemq2 x).mp hx with h | ⟨h1, h2⟩
            · obtain ⟨hk, hR, _⟩ := hrest_facts x h
              refine ⟨hk, ?_⟩
              intro hc
              rcases List.mem_append.mp hc with hc' | hc'
              · exact hR hc'
              · exact hnid_nrest ((List.mem_singleton.mp hc') ▸ h)
            · have hcnt1 : 1 ≤ node.dependents.count x := by
                by_contra hc
                have h0 : node.dependents.count x = 0 := by omega
                rw [h0] at h2
                simp at h2
                omega
              have hxdep : x ∈ node.dependents := by
                by_contra hc
                rw [List.count_eq_zero.mpr hc] at hcnt1
                omega
              have hxk : x ∈ dag.keys := H3 (nid, node) hpnode x hxdep
              refine ⟨hxk, ?_⟩
              intro hc
              rcases List.mem_append.mp hc with hc' | hc'
              · have := hI6 x hc'
                omega
              · obtain rfl := List.mem_singleton.mp hc'
                rw [hfnid] at h1
                omega
          · intro w nw hlw hwR'
            have hwR : w ∉ R := fun hc => hwR' (List.mem_append.mpr (Or.inl hc))
            rw [hf2v w, hI3 w nw hlw hwR]
            have hid := filter_append_singleton_count nw.dependencies R nid hnidR
            rw [hcount w nw hlw]
            rw [hid]
            push_cast
            omega
          · intro w nw hlw hwR'
            have hwR : w ∉ R := fun hc => hwR' (List.mem_append.mpr (Or.inl hc))
            have hwnid : w ≠ nid := fun hc =>
              hwR' (List.mem_append.mpr (Or.inr (List.mem_singleton.mpr hc)))
            have hid := filter_append_singleton_count nw.dependencies R nid hnidR
            have hold := hI3 w nw hlw hwR
            rw [hmemq2 w]
            constructor
            · rintro (h | ⟨h1, h2⟩)
              · have hwq : w ∈ c :: rest' := hperm0.subset (List.mem_cons_of_mem _ h)
                have h0 : (nw.dependencies.filter (fun v => !R.contains v)).length = 0 :=
                  (hI4 w nw hlw hwR).mp hwq
                omega
              · rw [hcount w nw hlw] at h2
                rw [hold] at h1 h2
                have h1' : 1 ≤ (nw.dependencies.filter (fun v => !R.contains v)).length := by
                  exact_mod_cast h1
                have h2' : (nw.dependencies.filter (fun v => !R.contains v)).length ≤
                    nw.dependencies.count nid := by
                  exact_mod_cast h2
                omega
            · intro hnew0
              by_cases hc1 : 1 ≤ nw.dependencies.count nid
              · right
                rw [hold, hcount w nw hlw]
                constructor
                · have h1' : 1 ≤ (nw.dependencies.filter (fun v => !R.contains v)).length := by
                    omega
                  exact_mod_cast h1'
                · have h2' : (nw.dependencies.filter (fun v => !R.contains v)).length ≤
                      nw.dependencies.count nid := by
                    omega
                  exact_mod_cast h2'
              · left
                have hold0 : (nw.dependencies.filter (fun v => !R.contains v)).length = 0 := by
                  omega
                have hwq := (hI4 w nw hlw hwR).mpr hold0
                have hwq' := hperm0.symm.subset hwq
                rcases List.mem_cons.mp hwq' with h | h
                · exact absurd h hwnid
                · exact h
          · intro u nu hlu huR' v hv
            rcases List.mem_append.mp huR' with huR | hunid
            · obtain ⟨hvR, hvlt⟩ := hI5 u nu hlu huR v hv
              refine ⟨List.mem_append.mpr (Or.inl hvR), ?_⟩
              rw [List.indexOf_append_of_mem hvR, List.indexOf_append_of_mem huR]
              exact hvlt
            · obtain rfl := List.mem_singleton.mp hunid
              rw [hlook] at hlu
              obtain rfl := Option.some.inj hlu
              have hvR := hdepsR v hv
              refine ⟨List.mem_append.mpr (Or.inl hvR), ?_⟩
              rw [List.indexOf_append_of_mem hvR,
                List.indexOf_append_of_not_mem hnidR]
              have hidx := List.indexOf_lt_length.mpr hvR
              have h0 : List.indexOf u [u] = 0 := by simp
              omega
          · intro w hw
            rw [hf2v w]
            rcases List.mem_append.mp hw with h | h
            · have := hI6 w h
              omega
            · obtain rfl := List.mem_singleton.mp h
              rw [hfnid]
              omega
        have hfuel' : (dag.keys.filter (fun k => !(R ++ [nid]).contains k)).length <
            fuel := by
          have hlt := length_filter_notMem_lt dag.keys R (R ++ [nid])
            (fun x hx => List.mem_append.mpr (Or.inl hx)) nid hnidk hnidR
            (List.mem_append.mpr (Or.inr (List.mem_singleton.mpr rfl)))
          omega
        obtain ⟨D', tD', heq, hnd', hmem', hord', htr'⟩ :=
          ih (kahnFold node.dependents f rest).2 (kahnFold node.dependents f rest).1
            (R ++ [nid]) (t ++ [(nid, nid :: rest)]) hInv' hfuel'
        have hass : (R ++ [nid]) ++ D' = R ++ nid :: D' := by
          rw [List.append_assoc, List.singleton_append]
        have tass : (t ++ [(nid, nid :: rest)]) ++ tD' = t ++ (nid, nid :: rest) :: tD' := by
          rw [List.append_assoc, List.singleton_append]
        refine ⟨nid :: D', (nid, nid :: rest) :: tD', ?_, ?_, ?_, ?_, ?_⟩
        · rw [hunf, heq, hass, tass]
        · rw [← hass]
          exact hnd'
        · intro x
          rw [← hass]
          exact hmem' x
        · intro u nu hlu huM v hv
          rw [← hass] at huM ⊢
          exact hord' u nu hlu huM v hv
        · intro e he
          rcases List.mem_cons.mp he with rfl | he'
          · exact sortByDesc_head_max (prioOf dag) (c :: rest') nid rest hs
          · exact htr' e he'

/-- C1 (amended): on a well-formed DAG (distinct keys, every dependency and
dependent id present, dependency and dependent lists mutually consistent)
on which `detect_cycle` reports no cycle, `topological_sort` succeeds and
returns every node exactly once with each dependency strictly before its
dependent, and every extraction pops a maximal-priority element of the
ready queue.  Without the presence conditions the sort can silently drop
nodes — see the counterexample. -/
theorem C1_topological_sort_complete (dag : CellDAG)
    (HK : dag.keys.Nodup)
    (H1 : ∀ p ∈ dag.nodes, ∀ v ∈ p.2.dependencies, v ∈ dag.keys)
    (H3 : ∀ p ∈ dag.nodes, ∀ v ∈ p.2.dependents, v ∈ dag.keys)
    (H2 : ∀ p ∈ dag.nodes, ∀ pq ∈ dag.nodes,
        p.2.dependencies.count pq.1 = pq.2.dependents.count p.1)
    (HC : detect_cycle dag = none) :
    ∃ order trace, topological_sort dag = some order ∧
      kahnTrace dag = some (order, trace) ∧
      order.Nodup ∧ (∀ x, x ∈ order ↔ x ∈ dag.keys) ∧
      (∀ u nu, lookupNode dag u = some nu → ∀ v ∈ nu.dependencies,
        order.indexOf v < order.indexOf u) ∧
      (∀ e ∈ trace, ∀ y ∈ e.2, prioOf dag y ≤ prioOf dag e.1) := by
  obtain ⟨L, _, _, hLord⟩ := detect_cycle_good dag HC
  have hInit : KahnInv dag [] (kahnInitQueue dag) (kahnInDeg dag) := by
    refine ⟨List.nodup_nil, ?_, ?_, ?_, ?_, ?_, ?_, ?_⟩
    · intro x hx
      exact absurd hx (List.not_mem_nil x)
    · exact (initQueue_sublist dag).nodup HK
    · intro x hx
      exact ⟨(initQueue_sublist dag).subset hx, List.not_mem_nil x⟩
    · intro w nw hlw _
      rw [filter_not_contains_nil]
      unfold kahnInDeg
      rw [hlw]
    · intro w nw hlw _
      rw [filter_not_contains_nil]
      rw [mem_kahnInitQueue dag HK w nw hlw]
      exact List.length_eq_zero.symm
    · intro u nu _ hu
      exact absurd hu (List.not_mem_nil u)
    · intro w hw
      exact absurd hw (List.not_mem_nil w)
  have hfuel : (dag.keys.filter (fun k => !([] : List String).contains k)).length <
      dag.nodes.length + 1 := by
    rw [filter_not_contains_nil]
    unfold CellDAG.keys
    rw [List.length_map]
    omega
  obtain ⟨D, tD, heq, hnd, hmem, hord, htr⟩ :=
    kahnLoopTrace_good dag L HK H1 H3 H2 hLord (dag.nodes.length + 1)
      (kahnInitQueue dag) (kahnInDeg dag) [] [] hInit hfuel
  rw [List.nil_append, List.nil_append] at heq
  rw [List.nil_append] at hnd
  have hmem' : ∀ x, x ∈ D ↔ x ∈ dag.keys := by
    intro x
    rw [← List.nil_append D]
    exact hmem x
  have hord' : ∀ u nu, lookupNode dag u = some nu → u ∈ D →
      ∀ v ∈ nu.dependencies, v ∈ D ∧ D.indexOf v < D.indexOf u := by
    intro u nu hlu huD v hv
    have := hord u nu hlu (by rw [List.nil_append]; exact huD) v hv
    rw [List.nil_append] at this
    exact this
  refine ⟨D, tD, ?_, heq, hnd, hmem', ?_, htr⟩
  · unfold topological_sort
    rw [HC]
    rw [kahnLoop_eq_trace dag (dag.nodes.length + 1) (kahnInitQueue dag)
      (kahnInDeg dag) [] []]
    rw [heq]
    rfl
  · intro u nu hlu v hv
    have huD : u ∈ D := (hmem' u).mpr (mem_keys_of_lookup dag u nu hlu)
    exact (hord' u nu hlu huD v hv).2

/-- C1 witness: the three-cell build with priorities 1, 5, 0 satisfies the
well-formedness hypotheses and the theorem applies to it. -/
theorem C1_witness :
    c1witDag.keys.Nodup ∧ detect_cycle c1witDag = none ∧
    (∃ order trace, topological_sort c1witDag = some order ∧
      kahnTrace c1witDag = some (order, trace) ∧
      order.Nodup ∧ (∀ x, x ∈ order ↔ x ∈ c1witDag.keys) ∧
      (∀ u nu, lookupNode c1witDag u = some nu → ∀ v ∈ nu.dependencies,
        order.indexOf v < order.indexOf u) ∧
      (∀ e ∈ trace, ∀ y ∈ e.2, prioOf c1witDag y ≤ prioOf c1witDag e.1)) :=
  ⟨by decide, by decide,
    C1_topological_sort_complete c1witDag (by decide) (by decide) (by decide)
      (by decide) (by decide)⟩

/-- C1 counterexample to the unamended claim: `add_cell` accepts a cell `u`
whose dependency list names the absent id `m`; `detect_cycle` reports no
cycle, yet `topological_sort` returns a list that omits `u` entirely — it
does not contain every node exactly once. -/
theorem C1_counterexample_dangling_dependency :
    add_cell emptyDAG "u" ["m"] 0 60 = some c1cexDag ∧
    detect_cycle c1cexDag = none ∧
    "u" ∈ c1cexDag.keys ∧
    topological_sort c1cexDag = some [] := by
  decide

/-! ## Claim C9 — critical path of the S3 scenario -/

/-- C9: on the DAG built from `a`(10), `b` deps{a}(20), `c` deps{a}(5),
`d` deps{b}(15), `e` deps{c}(40), `get_critical_path()` returns exactly
`["a", "c", "e"]`. -/
theorem C9_critical_path_s3 : c9dag.bind get_critical_path = some ["a", "c", "e"] := by
  decide

/-! ## Claim C7 — pheromone read on malformed state -/

/-- C7 counterexample: on the very first read of a malformed state file the
parse exception escapes (`Except.error`) and the file is left malformed —
nothing is recreated and nothing is retried, contradicting the claimed
3-retry/backoff recovery. -/
theorem C7_counterexample_first_read_raises :
    read_pheromone PheromoneFileState.malformed =
      (PheromoneFileState.malformed, Except.error "json.decoder.JSONDecodeError") := rfl

/-- C7 (amended): `_read_pheromone` returns the inactive default when the
file is absent, returns the parsed document when it is well-formed, and
propagates the parse error immediately when it is malformed; it never
modifies the file.  There is no retry, no backoff and no recreation. -/
theorem C7_read_pheromone_behaviour :
    (read_pheromone PheromoneFileState.absent).2 = Except.ok inactiveState ∧
    (∀ d, read_pheromone (PheromoneFileState.wellFormed d) =
      (PheromoneFileState.wellFormed d, Except.ok d)) ∧
    (read_pheromone PheromoneFileState.malformed).2 =
      Except.error "json.decoder.JSONDecodeError" ∧
    (∀ fs, (read_pheromone fs).1 = fs) := by
  refine ⟨rfl, fun d => rfl, rfl, fun fs => ?_⟩
  cases fs <;> rfl

/-! ## Claim C8 — pheromone decay sweep -/

theorem decay_fold_spec (now : ℚ) (l : List PheromoneEntry)
    (acc : List PheromoneEntry × Nat) :
    l.foldl (decayStep none now) acc =
      (acc.1 ++ l.filterMap (decaySurvivor now), acc.2 + l.countP (decayExpired now)) := by
  induction l generalizing acc with
  | nil => simp
  | cons p tl ih =>
    rw [List.foldl_cons, ih]
    match hp : p.timestamp with
    | none =>
      have hstep : decayStep none now acc p = (acc.1, acc.2 + 1) := by
        simp [decayStep, hp]
      have hsv : decaySurvivor now p = none := by simp [decaySurvivor, hp]
      have hex : decayExpired now p = true := by simp [decayExpired, hp]
      rw [hstep]
      simp [hsv, hex, List.countP_cons]
      omega
    | some t =>
      by_cases hlt : now - t < p.ttl
      · have hstep : decayStep none now acc p =
            (acc.1 ++ [{ p with strength := p.strength * (1 - (now - t) / p.ttl) }],
             acc.2) := by
          simp [decayStep, hp, hlt]
        have hsv : decaySurvivor now p =
            some { p with strength := p.strength * (1 - (now - t) / p.ttl) } := by
          simp [decaySurvivor, hp, hlt]
        have hex : decayExpired now p = false := by
          simp [decayExpired, hp]
          exact hlt
        rw [hstep]
        simp [hsv, hex, List.countP_cons]
      · have hstep : decayStep none now acc p = (acc.1, acc.2 + 1) := by
          simp [decayStep, hp, hlt]
        have hsv : decaySurvivor now p = none := by simp [decaySurvivor, hp, hlt]
        have hex : decayExpired now p = true := by
          simp [decayExpired, hp]
          exact not_lt.mp hlt
        rw [hstep]
        simp [hsv, hex, List.countP_cons]
        omega

theorem decaySurvivor_eq_some {now : ℚ} {p e : PheromoneEntry}
    (h : decaySurvivor now p = some e) :
    ∃ t, p.timestamp = some t ∧ now - t < p.ttl ∧
      e = { p with strength := p.strength * (1 - (now - t) / p.ttl) } := by
  unfold decaySurvivor at h
  split at h
  · exact absurd h (by simp)
  · next t ht =>
    split at h
    · next hlt => exact ⟨t, ht, hlt, (Option.some.inj h).symm⟩
    · exact absurd h (by simp)

/-- C8: in a decay sweep at time `now` (with no TTL override), every entry
whose age is at least its TTL — and every entry with an unparseable
timestamp — is removed from the live set; every survivor comes from a live
entry of age `< ttl` whose strength was multiplied by `1 − age/ttl`; and the
returned count is the number of expired entries. -/
theorem C8_decay_pheromones (now : ℚ) (active : List PheromoneEntry) :
    (∀ e ∈ (decay_pheromones none now active).1,
        ∃ t, e.timestamp = some t ∧ now - t < e.ttl) ∧
    (∀ e ∈ (decay_pheromones none now active).1,
        ∃ p ∈ active, ∃ t, p.timestamp = some t ∧ now - t < p.ttl ∧
          e = { p with strength := p.strength * (1 - (now - t) / p.ttl) }) ∧
    (decay_pheromones none now active).2 = active.countP (decayExpired now) := by
  have hfold := decay_fold_spec now active ([], 0)
  have h1 : (decay_pheromones none now active).1 = active.filterMap (decaySurvivor now) := by
    unfold decay_pheromones
    rw [hfold]
    simp
  have h2 : (decay_pheromones none now active).2 = active.countP (decayExpired now) := by
    unfold decay_pheromones
    rw [hfold]
    simp
  refine ⟨?_, ?_, h2⟩
  · intro e he
    rw [h1] at he
    obtain ⟨p, _, hp⟩ := List.mem_filterMap.mp he
    obtain ⟨t, ht, hlt, rfl⟩ := decaySurvivor_eq_some hp
    exact ⟨t, ht, hlt⟩
  · intro e he
    rw [h1] at he
    obtain ⟨p, hpmem, hp⟩ := List.mem_filterMap.mp he
    obtain ⟨t, ht, hlt, rfl⟩ := decaySurvivor_eq_some hp
    exact ⟨p, hpmem, t, ht, hlt, rfl⟩

/-! ## Claim C4 — cross-validation consensus -/

theorem variance_branch_eq (scores : List ℚ) (h : scores ≠ []) :
    (if 1 < scores.length then
        ((scores.map (fun s => (s - scoreMean scores) ^ 2)).sum / (scores.length : ℚ))
      else 0) = scoreVariance scores := by
  match scores, h with
  | [s], _ =>
    simp [scoreVariance, scoreMean]
  | s1 :: s2 :: rest, _ =>
    rw [if_pos (by simp)]
    rfl

theorem cross_validate_consensus_iff (scores : List ℚ) (h : scores ≠ []) :
    cross_validate_consensus scores = true ↔
      (90 ≤ scoreMean scores ∧ scoreVariance scores < 100 ∧
        ((∀ s ∈ scores, (90 : ℚ) ≤ s) ∨ 95 ≤ scoreMean scores)) := by
  have hexp : cross_validate_consensus scores =
      (decide (CONSENSUS_THRESHOLD ≤ scoreMean scores) &&
        decide ((if 1 < scores.length then
            ((scores.map (fun s => (s - scoreMean scores) ^ 2)).sum / (scores.length : ℚ))
          else 0) < 100) &&
        (scores.all drone_passed || decide ((95 : ℚ) ≤ scoreMean scores))) := rfl
  rw [hexp, variance_branch_eq scores h]
  simp only [Bool.and_eq_true, Bool.or_eq_true, decide_eq_true_eq, List.all_eq_true,
    drone_passed, CONSENSUS_THRESHOLD]
  tauto

/-- C4: for a cross-validation over at least one drone, the returned
`consensus_reached` is true iff the mean score is ≥ 90, the population
variance is < 100, and either every drone individually passed (per-drone
score ≥ 90) or the mean is ≥ 95.  In particular the consensus holds for
per-drone scores {92, 94, 91} and fails for {80, 94, 91}. -/
theorem C4_cross_validate_consensus :
    (∀ scores : List ℚ, scores ≠ [] →
      (cross_validate_consensus scores = true ↔
        (90 ≤ scoreMean scores ∧ scoreVariance scores < 100 ∧
          ((∀ s ∈ scores, (90 : ℚ) ≤ s) ∨ 95 ≤ scoreMean scores)))) ∧
    cross_validate_consensus [92, 94, 91] = true ∧
    cross_validate_consensus [80, 94, 91] = false := by
  refine ⟨cross_validate_consensus_iff, ?_, ?_⟩
  · refine (cross_validate_consensus_iff [92, 94, 91] (by simp)).mpr ?_
    refine ⟨?_, ?_, Or.inl ?_⟩
    · norm_num [scoreMean]
    · norm_num [scoreVariance, scoreMean]
    · intro s hs
      simp only [List.mem_cons, List.not_mem_nil, or_false] at hs
      rcases hs with rfl | rfl | rfl <;> norm_num
  · cases hcv : cross_validate_consensus [80, 94, 91] with
    | false => rfl
    | true =>
      have hrhs := (cross_validate_consensus_iff [80, 94, 91] (by simp)).mp hcv
      have hmean : scoreMean [(80 : ℚ), 94, 91] < 90 := by norm_num [scoreMean]
      exact absurd hrhs.1 (not_le.mpr hmean)

/-- Witness for C4 at the concrete scores {92, 94, 91}. -/
theorem C4_witness : cross_validate_consensus [92, 94, 91] = true :=
  C4_cross_validate_consensus.2.1

/-! ## Claim C10 — release callback argument -/

/-- C10: when a completion callback is registered and the released worker
exists, the callback receives the worker id (never the released task's cell
id), because `current_task` is cleared before the callback argument is
computed. -/
theorem C10_release_callback_gets_worker_id (pool : WorkerPool) (worker_id : String)
    (success : Bool) (now : ℤ)
    (hw : (lookupWorker pool worker_id).isSome = true)
    (hcb : pool.has_complete_cb = true) :
    (release_worker pool worker_id success now).2 = some (worker_id, success) := by
  unfold release_worker
  match hl : lookupWorker pool worker_id with
  | none => rw [hl] at hw; simp at hw
  | some w =>
    simp only
    have hcb1 : (updateWorker pool worker_id (fun w =>
        let w1 := if success then { w with completed_tasks := w.completed_tasks + 1 }
                  else { w with failed_tasks := w.failed_tasks + 1 }
        { w1 with current_task := none, state := .idle, progress := 0,
                  worktree_path := none, last_heartbeat := some now })).has_complete_cb =
        true := hcb
    rw [lookupWorker_updateWorker_self, hl]
    rw [if_pos hcb1]
    split <;> rfl

/-- Witness for C10: releasing the concrete busy worker fires the callback
with the worker id. -/
theorem C10_witness :
    (release_worker c10pool "worker-1" true 5).2 = some ("worker-1", true) :=
  C10_release_callback_gets_worker_id c10pool "worker-1" true 5 (by decide) (by decide)

end Trellis
